import Mathlib

/-!
# Verification of the BPM core (package codec, signing, sync pipeline, store)

Shallow embedding of the Rust sources of the BPM package-metadata
distribution system.  Bytes are modelled as natural numbers (`< 256` in
every real execution), byte strings as `List Nat`, Rust `String`s by their
UTF-8 byte content.  Functions that can panic in Rust return a `POutcome`
whose `panic` constructor marks the panic; fallible functions return
`Except DecoderError`.

The RLP layer mirrors the parity `rlp` crate as the sources use it
(`RlpStream::append`, `append_list`, `append_raw`, `Rlp::val_at`,
`Rlp::list_at`, `BasicDecoder::decode_value`).
-/

namespace BPM

/-- Decoder errors of the parity `rlp` crate (the variants the embedded
code paths can produce). -/
inductive DecoderError where
  | RlpIsTooShort
  | RlpExpectedToBeList
  | RlpExpectedToBeData
  | RlpInvalidIndirection
  | RlpDataLenWithZeroPrefix
  | RlpInconsistentLengthAndData
  | RlpIsTooBig
  deriving DecidableEq, Repr

/-- Outcome of a Rust computation that may return a value, return a
decoder error, or panic. -/
inductive POutcome (α : Type) where
  | ok : α → POutcome α
  | err : DecoderError → POutcome α
  | panic : POutcome α
  deriving DecidableEq, Repr

/-! ## Big-endian length bytes -/

/-- Fuel-driven big-endian digit extraction (structural, so that the
kernel can evaluate concrete encodings). -/
def beBytesAux (fuel n : Nat) : List Nat :=
  match fuel with
  | 0 => []
  | fuel + 1 => if n = 0 then [] else beBytesAux fuel (n / 256) ++ [n % 256]

/-- Big-endian base-256 digits of `n` (empty for 0), as emitted by the
rlp crate when writing a long length.  `n` itself always suffices as
fuel, since the value shrinks by a factor 256 per digit. -/
def beBytes (n : Nat) : List Nat := beBytesAux n n

theorem beBytesAux_eq (f1 f2 n : Nat) (h1 : n ≤ f1) (h2 : n ≤ f2) :
    beBytesAux f1 n = beBytesAux f2 n := by
  induction n using Nat.strong_induction_on generalizing f1 f2 with
  | _ n ih =>
    by_cases h0 : n = 0
    · subst h0
      cases f1 <;> cases f2 <;> simp [beBytesAux]
    · match f1, f2, Nat.lt_of_lt_of_le (Nat.pos_of_ne_zero h0) h1,
        Nat.lt_of_lt_of_le (Nat.pos_of_ne_zero h0) h2 with
      | g1 + 1, g2 + 1, _, _ =>
        simp only [beBytesAux, if_neg h0]
        have hdiv : n / 256 < n := Nat.div_lt_self (Nat.pos_of_ne_zero h0) (by norm_num)
        rw [ih (n / 256) hdiv g1 g2 (by omega) (by omega)]

/-- The recursive unfolding of `beBytes`. -/
theorem beBytes_unfold (n : Nat) :
    beBytes n = if n = 0 then [] else beBytes (n / 256) ++ [n % 256] := by
  by_cases h0 : n = 0
  · simp [beBytes, h0, beBytesAux]
  · unfold beBytes
    match n, Nat.pos_of_ne_zero h0 with
    | m + 1, _ =>
      simp only [beBytesAux, if_neg h0, if_neg (by omega : ¬m + 1 = 0)]
      have hdiv : (m + 1) / 256 < m + 1 := Nat.div_lt_self (by omega) (by norm_num)
      rw [beBytesAux_eq m ((m + 1) / 256) ((m + 1) / 256) (by omega) (le_refl _)]

/-- Big-endian value of a digit list. -/
def beVal (l : List Nat) : Nat :=
  l.foldl (fun a b => a * 256 + b) 0

theorem beVal_append_digit (l : List Nat) (d : Nat) :
    beVal (l ++ [d]) = beVal l * 256 + d := by
  simp [beVal, List.foldl_append]

theorem beVal_beBytes (n : Nat) : beVal (beBytes n) = n := by
  induction n using Nat.strong_induction_on with
  | _ n ih =>
    rw [beBytes_unfold]
    by_cases h : n = 0
    · simp [h, beVal]
    · simp only [h, if_false]
      rw [beVal_append_digit, ih (n / 256) (Nat.div_lt_self (Nat.pos_of_ne_zero h) (by norm_num))]
      omega

theorem beBytes_ne_nil {n : Nat} (h : n ≠ 0) : beBytes n ≠ [] := by
  rw [beBytes_unfold]
  simp [h]

theorem beBytes_headD_ne_zero {n : Nat} (h : n ≠ 0) : (beBytes n).headD 0 ≠ 0 := by
  induction n using Nat.strong_induction_on with
  | _ n ih =>
    rw [beBytes_unfold]
    simp only [h, if_false]
    by_cases h2 : n / 256 = 0
    · rw [beBytes_unfold]
      simp only [h2, if_true, List.nil_append, List.headD]
      omega
    · have hne := beBytes_ne_nil h2
      cases hb : beBytes (n / 256) with
      | nil => exact absurd hb hne
      | cons a t =>
        have := ih (n / 256) (Nat.div_lt_self (Nat.pos_of_ne_zero h) (by norm_num)) h2
        rw [hb] at this
        simpa using this

theorem beBytes_length_le {n k : Nat} (h : n < 256 ^ k) : (beBytes n).length ≤ k := by
  induction k generalizing n with
  | zero =>
    have : n = 0 := by omega
    rw [beBytes_unfold]
    simp [this]
  | succ k ih =>
    rw [beBytes_unfold]
    by_cases h0 : n = 0
    · simp [h0]
    · simp only [h0, if_false, List.length_append, List.length_cons, List.length_nil]
      have : n / 256 < 256 ^ k := by
        rw [Nat.div_lt_iff_lt_mul (by norm_num)]
        calc n < 256 ^ (k + 1) := h
        _ = 256 ^ k * 256 := by ring
      have := ih this
      omega

theorem beVal_singleton (v : Nat) : beVal [v] = v := by
  simp [beVal]

/-! ## RLP encoding (parity rlp crate) -/

/-- Header bytes for an item with payload length `len`; `base` is `0x80`
for data and `0xc0` for lists. -/
def rlpHeader (base len : Nat) : List Nat :=
  if len ≤ 55 then [base + len]
  else (base + 55 + (beBytes len).length) :: beBytes len

/-- RLP encoding of a byte string (`Encodable` for `&[u8]` / `String`). -/
def rlpEncBytes (bs : List Nat) : List Nat :=
  if bs.length = 1 ∧ bs.headD 0 < 0x80 then bs
  else rlpHeader 0x80 bs.length ++ bs

/-- RLP encoding of a list item from its already-encoded payload. -/
def rlpEncList (payload : List Nat) : List Nat :=
  rlpHeader 0xc0 payload.length ++ payload

/-- RLP encoding of a `u8` (unsigned-integer rule: zero encodes as the
empty string). -/
def rlpEncU8 (v : Nat) : List Nat :=
  rlpEncBytes (if v = 0 then [] else [v])

/-! ## RLP parsing -/

/-- Parse the header of the item at the start of `bytes`: returns
`(isList, headerLen, payloadLen)`.  Mirrors the offset computations of
parity rlp's `PayloadInfo`. -/
def parseHeader : List Nat → Except DecoderError (Bool × Nat × Nat)
  | [] => .error .RlpIsTooShort
  | b :: rest =>
    if b < 0x80 then .ok (false, 0, 1)
    else if b ≤ 0xb7 then .ok (false, 1, b - 0x80)
    else if b ≤ 0xbf then
      let lol := b - 0xb7
      if rest.length < lol then .error .RlpIsTooShort
      else if (rest.take lol).headD 0 = 0 then .error .RlpDataLenWithZeroPrefix
      else .ok (false, 1 + lol, beVal (rest.take lol))
    else if b ≤ 0xf7 then .ok (true, 1, b - 0xc0)
    else
      let lol := b - 0xf7
      if rest.length < lol then .error .RlpIsTooShort
      else if (rest.take lol).headD 0 = 0 then .error .RlpDataLenWithZeroPrefix
      else .ok (true, 1 + lol, beVal (rest.take lol))

theorem parseHeader_total_pos {bytes : List Nat} {fl : Bool} {h l : Nat}
    (hp : parseHeader bytes = .ok (fl, h, l)) : 1 ≤ h + l := by
  match bytes with
  | [] => simp [parseHeader] at hp
  | b :: rest =>
    simp only [parseHeader] at hp
    split at hp
    · simp_all
    · split at hp
      · simp only [Except.ok.injEq, Prod.mk.injEq] at hp
        omega
      · split at hp
        · split at hp
          · simp_all
          · split at hp
            · simp_all
            · simp only [Except.ok.injEq, Prod.mk.injEq] at hp
              omega
        · split at hp
          · simp only [Except.ok.injEq, Prod.mk.injEq] at hp
            omega
          · split at hp
            · simp_all
            · split at hp
              · simp_all
              · simp only [Except.ok.injEq, Prod.mk.injEq] at hp
                omega

/-- Split off the raw bytes (header included) of the first item of
`bytes`, returning `(item, rest)`. -/
def splitItem (bytes : List Nat) : Except DecoderError (List Nat × List Nat) :=
  match parseHeader bytes with
  | .error e => .error e
  | .ok (_, h, l) =>
    if bytes.length < h + l then .error .RlpIsTooShort
    else .ok (bytes.take (h + l), bytes.drop (h + l))

theorem splitItem_rest_lt {bytes item rest : List Nat}
    (hs : splitItem bytes = .ok (item, rest)) : rest.length < bytes.length := by
  unfold splitItem at hs
  split at hs
  · cases hs
  · rename_i fl h l hp
    split at hs
    · cases hs
    · simp only [Except.ok.injEq, Prod.mk.injEq] at hs
      have hpos := parseHeader_total_pos hp
      obtain ⟨-, hr⟩ := hs
      subst hr
      simp only [List.length_drop]
      omega

/-- Fuel-driven item iteration (structural, so that the kernel can
evaluate concrete decodings). -/
def subItemsAux (fuel : Nat) (payload : List Nat) : List (List Nat) :=
  match fuel with
  | 0 => []
  | fuel + 1 =>
    match splitItem payload with
    | .error _ => []
    | .ok (item, rest) => item :: subItemsAux fuel rest

/-- The raw items of a list payload, in order.  Mirrors the rlp
iterator, which stops at the first framing error or at the end of the
payload.  Each item consumes at least one byte, so `length + 1` fuel
always suffices. -/
def subItemsRaw (payload : List Nat) : List (List Nat) :=
  subItemsAux (payload.length + 1) payload

theorem subItemsAux_eq (f1 f2 : Nat) (payload : List Nat)
    (h1 : payload.length < f1) (h2 : payload.length < f2) :
    subItemsAux f1 payload = subItemsAux f2 payload := by
  induction f1 generalizing f2 payload with
  | zero => omega
  | succ g1 ih =>
    match f2, h2 with
    | g2 + 1, _ =>
      simp only [subItemsAux]
      match hsp : splitItem payload with
      | .error _ => rfl
      | .ok (item, rest) =>
        have hlt := splitItem_rest_lt hsp
        exact congrArg (item :: ·) (ih g2 rest (by omega) (by omega))

theorem subItemsRaw_of_split {payload item rest : List Nat}
    (hs : splitItem payload = .ok (item, rest)) :
    subItemsRaw payload = item :: subItemsRaw rest := by
  unfold subItemsRaw
  have hlt := splitItem_rest_lt hs
  rw [subItemsAux_eq (rest.length + 1) payload.length rest (by omega) hlt]
  simp only [subItemsAux, hs]

theorem subItemsRaw_of_error {payload : List Nat} {e : DecoderError}
    (hs : splitItem payload = .error e) : subItemsRaw payload = [] := by
  unfold subItemsRaw
  simp only [subItemsAux, hs]

theorem subItemsRaw_nil : subItemsRaw [] = [] :=
  subItemsRaw_of_error (e := .RlpIsTooShort) rfl

/-- Payload of the top-level RLP item, required to be a list
(`Rlp::at` on a non-list returns `RlpExpectedToBeList`). -/
def readTop (bytes : List Nat) : Except DecoderError (List Nat) :=
  match parseHeader bytes with
  | .error e => .error e
  | .ok (isList, h, l) =>
    if !isList then .error .RlpExpectedToBeList
    else if bytes.length < h + l then .error .RlpIsTooShort
    else .ok ((bytes.drop h).take l)

/-- Raw bytes of item `i` of the top-level list. -/
def valAtRaw (bytes : List Nat) (i : Nat) : Except DecoderError (List Nat) :=
  match readTop bytes with
  | .error e => .error e
  | .ok payload =>
    match (subItemsRaw payload).get? i with
    | some it => .ok it
    | none => .error .RlpIsTooShort

/-- `BasicDecoder::decode_value`: payload of a data item with the
canonicity checks of the rlp crate. -/
def decodeValue (raw : List Nat) : Except DecoderError (List Nat) :=
  match raw with
  | [] => .error .RlpIsTooShort
  | b :: rest =>
    if b ≤ 0x7f then .ok [b]
    else if b ≤ 0xb7 then
      let len := b - 0x80
      if rest.length < len then .error .RlpIsTooShort
      else if len = 1 ∧ (rest.take len).headD 0 < 0x80 then .error .RlpInvalidIndirection
      else .ok (rest.take len)
    else if b ≤ 0xbf then
      let lol := b - 0xb7
      if rest.length < lol then .error .RlpIsTooShort
      else if (rest.take lol).headD 0 = 0 then .error .RlpDataLenWithZeroPrefix
      else
        let len := beVal (rest.take lol)
        if len ≤ 55 then .error .RlpInconsistentLengthAndData
        else if (rest.drop lol).length < len then .error .RlpIsTooShort
        else .ok ((rest.drop lol).take len)
    else .error .RlpExpectedToBeData

/-- Decode a data item holding a byte string (`Decodable` for
`Vec<u8>`; `String` additionally checks UTF-8 validity, which is
invisible at the byte level modelled here). -/
def decodeBytes (raw : List Nat) : Except DecoderError (List Nat) :=
  decodeValue raw

/-! ### Framing lemmas: an encoded item is self-delimiting -/

theorem pow64_eq : (2 : Nat) ^ 64 = 256 ^ 8 := by norm_num

theorem parseHeader_headed (base n : Nat) (fl : Bool) (tail : List Nat)
    (hb : base = 128 ∧ fl = false ∨ base = 192 ∧ fl = true) (hn : n < 2 ^ 64) :
    parseHeader (rlpHeader base n ++ tail) =
      .ok (fl, (rlpHeader base n).length, n) := by
  unfold rlpHeader
  by_cases h55 : n ≤ 55
  · simp only [if_pos h55, List.cons_append, List.nil_append, List.length_cons,
      List.length_nil]
    unfold parseHeader
    simp only []
    rcases hb with ⟨rfl, rfl⟩ | ⟨rfl, rfl⟩
    · rw [if_neg (by omega), if_pos (by omega),
        show 128 + n - 128 = n from by omega]
    · rw [if_neg (by omega), if_neg (by omega), if_neg (by omega), if_pos (by omega),
        show 192 + n - 192 = n from by omega]
  · have hn0 : n ≠ 0 := by omega
    have hk1 : beBytes n ≠ [] := beBytes_ne_nil hn0
    have hk1' : 1 ≤ (beBytes n).length := by
      cases hb2 : beBytes n
      · exact absurd hb2 hk1
      · simp
    have hk8 : (beBytes n).length ≤ 8 := beBytes_length_le (pow64_eq ▸ hn)
    simp only [if_neg h55, List.cons_append, List.length_cons]
    unfold parseHeader
    simp only []
    have htake : ((beBytes n ++ tail).take ((beBytes n).length)) = beBytes n :=
      List.take_left _ _
    rcases hb with ⟨rfl, rfl⟩ | ⟨rfl, rfl⟩
    · rw [if_neg (by omega), if_neg (by omega), if_pos (by omega)]
      have harith : 128 + 55 + (beBytes n).length - 183 = (beBytes n).length := by omega
      rw [harith, htake,
        if_neg (by simp only [List.length_append]; omega),
        if_neg (beBytes_headD_ne_zero hn0), beVal_beBytes,
        Nat.add_comm 1 ((beBytes n).length)]
    · rw [if_neg (by omega), if_neg (by omega), if_neg (by omega), if_neg (by omega)]
      have harith : 192 + 55 + (beBytes n).length - 247 = (beBytes n).length := by omega
      rw [harith, htake,
        if_neg (by simp only [List.length_append]; omega),
        if_neg (beBytes_headD_ne_zero hn0), beVal_beBytes,
        Nat.add_comm 1 ((beBytes n).length)]

theorem rlpHeader_length_le (base n : Nat) (hn : n < 2 ^ 64) :
    (rlpHeader base n).length ≤ 9 := by
  unfold rlpHeader
  by_cases h55 : n ≤ 55
  · simp [h55]
  · have hk8 : (beBytes n).length ≤ 8 := beBytes_length_le (pow64_eq ▸ hn)
    simp only [if_neg h55, List.length_cons]
    omega

theorem splitItem_headed (base n : Nat) (fl : Bool) (p rest : List Nat)
    (hb : base = 128 ∧ fl = false ∨ base = 192 ∧ fl = true)
    (hp : p.length = n) (hn : n < 2 ^ 64) :
    splitItem ((rlpHeader base n ++ p) ++ rest) =
      .ok (rlpHeader base n ++ p, rest) := by
  unfold splitItem
  rw [List.append_assoc, parseHeader_headed base n fl (p ++ rest) hb hn]
  simp only []
  rw [if_neg (by simp only [List.length_append]; omega)]
  have ht : ((rlpHeader base n ++ (p ++ rest)).take ((rlpHeader base n).length + n)) =
      rlpHeader base n ++ p := by
    rw [List.take_append, ← hp, List.take_left]
  have hd : ((rlpHeader base n ++ (p ++ rest)).drop ((rlpHeader base n).length + n)) = rest := by
    rw [List.drop_append, ← hp, List.drop_left]
  rw [ht, hd]

/-- Splitting off an encoded byte-string item. -/
theorem splitItem_encBytes (bs rest : List Nat) (hlen : bs.length < 2 ^ 64) :
    splitItem (rlpEncBytes bs ++ rest) = .ok (rlpEncBytes bs, rest) := by
  unfold rlpEncBytes
  by_cases hsb : bs.length = 1 ∧ bs.headD 0 < 0x80
  · obtain ⟨hl, hh⟩ := hsb
    match bs, hl with
    | [b], _ =>
      simp only [List.headD] at hh
      rw [if_pos (by simp [hh])]
      unfold splitItem parseHeader
      simp only [List.cons_append, List.nil_append]
      rw [if_pos (by simpa using hh)]
      simp only []
      rw [if_neg (by simp)]
      simp
  · rw [if_neg hsb]
    exact splitItem_headed 128 bs.length false bs rest (Or.inl ⟨rfl, rfl⟩) rfl hlen

/-- Splitting off an encoded list item. -/
theorem splitItem_encList (p rest : List Nat) (hlen : p.length < 2 ^ 64) :
    splitItem (rlpEncList p ++ rest) = .ok (rlpEncList p, rest) := by
  unfold rlpEncList
  exact splitItem_headed 192 p.length true p rest (Or.inr ⟨rfl, rfl⟩) rfl hlen

/-- The payload of a top-level encoded list. -/
theorem readTop_encList (p : List Nat) (hlen : p.length < 2 ^ 64) :
    readTop (rlpEncList p) = .ok p := by
  unfold readTop rlpEncList
  rw [show rlpHeader 192 p.length ++ p = rlpHeader 192 p.length ++ p ++ [] by simp,
    List.append_assoc, parseHeader_headed 192 p.length true (p ++ []) (Or.inr ⟨rfl, rfl⟩) hlen]
  simp only [Bool.not_true, List.append_nil, if_neg (Bool.false_ne_true)]
  rw [if_neg (by simp only [List.length_append]; omega)]
  rw [List.drop_left, List.take_length]

/-- Decode a data item as a `u8` (unsigned-integer rule: no leading
zero, at most one byte). -/
def decodeU8 (raw : List Nat) : Except DecoderError Nat :=
  match decodeValue raw with
  | .error e => .error e
  | .ok d =>
    if d ≠ [] ∧ d.headD 0 = 0 then .error .RlpInvalidIndirection
    else if 1 < d.length then .error .RlpIsTooBig
    else .ok (beVal d)

/-- `collect::<Result<Vec<u8>, _>>` over already-split raw items. -/
def decodeU8All : List (List Nat) → Except DecoderError (List Nat)
  | [] => .ok []
  | r :: rs =>
    match decodeU8 r with
    | .error e => .error e
    | .ok v =>
      match decodeU8All rs with
      | .error e => .error e
      | .ok vs => .ok (v :: vs)

/-- `Rlp::list_at::<u8>(i)`: the sub-items of item `i`, each decoded as
a `u8`.  A non-list item yields the empty vector (the rlp iterator over
a non-list produces no items). -/
def listAtU8 (bytes : List Nat) (i : Nat) : Except DecoderError (List Nat) :=
  match valAtRaw bytes i with
  | .error e => .error e
  | .ok raw =>
    match parseHeader raw with
    | .error _ => .ok []
    | .ok (isList, h, l) =>
      if isList then decodeU8All (subItemsRaw ((raw.drop h).take l))
      else .ok []

/-! ### Value-decoding round trips -/

theorem decodeValue_encBytes (bs : List Nat) (hlen : bs.length < 2 ^ 64) :
    decodeValue (rlpEncBytes bs) = .ok bs := by
  unfold rlpEncBytes
  by_cases hsb : bs.length = 1 ∧ bs.headD 0 < 0x80
  · obtain ⟨hl, hh⟩ := hsb
    match bs, hl with
    | [b], _ =>
      simp only [List.headD] at hh
      rw [if_pos (by simp [hh])]
      unfold decodeValue
      simp only []
      rw [if_pos (by omega)]
  · rw [if_neg hsb]
    unfold rlpHeader
    by_cases h55 : bs.length ≤ 55
    · simp only [if_pos h55, List.cons_append, List.nil_append]
      unfold decodeValue
      simp only []
      rw [if_neg (by omega), if_pos (by omega),
        show 128 + bs.length - 128 = bs.length from by omega]
      rw [if_neg (by omega)]
      rw [if_neg (by
        rw [List.take_length]
        exact fun hc => hsb hc)]
      rw [List.take_length]
    · have hn0 : bs.length ≠ 0 := by omega
      have hk1 : beBytes bs.length ≠ [] := beBytes_ne_nil hn0
      have hk1' : 1 ≤ (beBytes bs.length).length := by
        cases hb2 : beBytes bs.length
        · exact absurd hb2 hk1
        · simp
      have hk8 : (beBytes bs.length).length ≤ 8 := beBytes_length_le (pow64_eq ▸ hlen)
      simp only [if_neg h55, List.cons_append]
      unfold decodeValue
      simp only []
      rw [if_neg (by omega), if_neg (by omega), if_pos (by omega),
        show 128 + 55 + (beBytes bs.length).length - 183 = (beBytes bs.length).length
          from by omega]
      rw [if_neg (by simp only [List.length_append]; omega),
        List.take_left, if_neg (beBytes_headD_ne_zero hn0), beVal_beBytes,
        if_neg (by omega), List.drop_left]
      rw [if_neg (by omega), List.take_length]

theorem decodeU8_encU8 (v : Nat) : decodeU8 (rlpEncU8 v) = .ok v := by
  unfold rlpEncU8 decodeU8
  by_cases hv : v = 0
  · subst hv
    rfl
  · rw [if_neg hv, decodeValue_encBytes [v] (by simp)]
    simp only []
    rw [if_neg (by
      simp only [List.headD, ne_eq]
      exact fun hc => hv hc.2)]
    rw [if_neg (by simp), beVal_singleton]

/-- Concatenation of the per-byte `u8` encodings: the payload that
`RlpStream::append_list(&[u8])` emits. -/
def u8Items : List Nat → List Nat
  | [] => []
  | b :: t => rlpEncU8 b ++ u8Items t

theorem subItemsRaw_u8Items (l : List Nat) :
    subItemsRaw (u8Items l) = l.map rlpEncU8 := by
  induction l with
  | nil => simpa [u8Items] using subItemsRaw_nil
  | cons a t ih =>
    simp only [List.map_cons, u8Items]
    have hsplit : splitItem (rlpEncU8 a ++ u8Items t) =
        .ok (rlpEncU8 a, u8Items t) := by
      unfold rlpEncU8
      exact splitItem_encBytes _ _ (by split <;> simp)
    rw [subItemsRaw_of_split hsplit, ih]

theorem decodeU8All_u8join (l : List Nat) :
    decodeU8All (l.map rlpEncU8) = .ok l := by
  induction l with
  | nil => rfl
  | cons a t ih =>
    simp only [List.map_cons]
    unfold decodeU8All
    rw [decodeU8_encU8, ih]

/-! ### Length bounds of encoded items -/

theorem rlpEncBytes_length_le (bs : List Nat) (hlen : bs.length < 2 ^ 64) :
    (rlpEncBytes bs).length ≤ bs.length + 9 := by
  unfold rlpEncBytes
  split
  · omega
  · have := rlpHeader_length_le 128 bs.length hlen
    simp only [List.length_append]
    omega

theorem rlpEncList_length_le (p : List Nat) (hlen : p.length < 2 ^ 64) :
    (rlpEncList p).length ≤ p.length + 9 := by
  unfold rlpEncList
  have := rlpHeader_length_le 192 p.length hlen
  simp only [List.length_append]
  omega

theorem rlpEncU8_length_le (v : Nat) : (rlpEncU8 v).length ≤ 2 := by
  by_cases hv : v = 0
  · simp [rlpEncU8, rlpEncBytes, rlpHeader, hv]
  · by_cases hv2 : v < 128
    · simp [rlpEncU8, rlpEncBytes, rlpHeader, hv, hv2]
    · simp [rlpEncU8, rlpEncBytes, rlpHeader, hv, hv2]

theorem u8Items_length_le (l : List Nat) :
    (u8Items l).length ≤ 2 * l.length := by
  induction l with
  | nil => simp [u8Items]
  | cons a t ih =>
    simp only [u8Items, List.length_append, List.length_cons]
    have := rlpEncU8_length_le a
    omega
/-! ## Package data model (src/packages/core/src/packages/package.rs) -/

/-- `PackageStatus` (`#[repr(u8)]`, values 0..=5). -/
inductive PackageStatus where
  | NA
  | Prohibited
  | Outdated
  | Fine
  | Recommended
  | HighlyRecommended
  deriving DecidableEq, Repr

/-- `PackageStatus as u8`. -/
def PackageStatus.toU8 : PackageStatus → Nat
  | .NA => 0
  | .Prohibited => 1
  | .Outdated => 2
  | .Fine => 3
  | .Recommended => 4
  | .HighlyRecommended => 5

/-- `impl TryFrom<u8> for PackageStatus`: `Ok` for 0..=5, `Err` otherwise. -/
def PackageStatus.tryFrom : Nat → Option PackageStatus
  | 0 => some .NA
  | 1 => some .Prohibited
  | 2 => some .Outdated
  | 3 => some .Fine
  | 4 => some .Recommended
  | 5 => some .HighlyRecommended
  | _ => none

theorem PackageStatus.tryFrom_toU8 (s : PackageStatus) :
    PackageStatus.tryFrom s.toU8 = some s := by
  cases s <;> rfl

/-- `PackageIntegrity { algorithm: String, archive_hash: Vec<u8> }`;
the algorithm is represented by its UTF-8 bytes. -/
structure PackageIntegrity where
  algorithm : List Nat
  archive_hash : List Nat
  deriving DecidableEq, Repr

/-- `Package` as defined in package.rs: `name`, `version`, `status`,
`maintainer` (a parsed `VerifyingKey`, represented by its 32 bytes),
`integrity`, and an optional 64-byte `sig`.  (This `Package` carries no
archive-url field.) -/
structure Package where
  name : List Nat
  version : List Nat
  status : PackageStatus
  maintainer : List Nat
  integrity : PackageIntegrity
  sig : Option (List Nat)
  deriving DecidableEq, Repr

/-- The cryptographic primitives the sources call
(`sha2::Sha256`, `ed25519_dalek::VerifyingKey::{from_bytes, verify_strict}`),
kept abstract: `keyValid k` states that `VerifyingKey::from_bytes`
succeeds on the 32-byte string `k`, and `verifyStrict key msg sig`
is `verify_strict`'s boolean outcome. -/
structure CryptoModel where
  sha256 : List Nat → List Nat
  verifyStrict : List Nat → List Nat → List Nat → Bool
  keyValid : List Nat → Bool

/-! ## Package wire encoding -/

/-- `rlp::encode(&PackageIntegrity)`: a 2-element list
`[algorithm, archive_hash]`. -/
def rlpEncIntegrity (pi : PackageIntegrity) : List Nat :=
  rlpEncList (rlpEncBytes pi.algorithm ++ rlpEncBytes pi.archive_hash)

/-- The wire shape of the integrity element:
`RlpStream::append_list(&rlp::encode(&integrity))` emits a list whose
items are the individual bytes of the encoded 2-element integrity
list, each encoded as a `u8`. -/
def integrityWire (pi : PackageIntegrity) : List Nat :=
  rlpEncList (u8Items (rlpEncIntegrity pi))

/-- `Package::get_rlp_data_stream().as_raw()`: the raw concatenation of
the five data items (name, version, status, maintainer, integrity),
with no enclosing list header and without the signature. -/
def rlpDataStreamRaw (p : Package) : List Nat :=
  rlpEncBytes p.name ++ rlpEncBytes p.version ++ rlpEncU8 p.status.toU8 ++
    rlpEncBytes p.maintainer ++ integrityWire p.integrity

/-- `rlp::encode(&Package)` (`impl Encodable for Package`): panics when
no signature is attached, otherwise wraps the five data items plus the
signature in one list. -/
def rlpEncodePackage (p : Package) : POutcome (List Nat) :=
  match p.sig with
  | none => .panic
  | some s => .ok (rlpEncList (rlpDataStreamRaw p ++ rlpEncBytes s))

/-- `Package::compute_data_integrity`: SHA-256 over the raw data
stream (signature excluded). -/
def computeDataIntegrity (C : CryptoModel) (p : Package) : List Nat :=
  C.sha256 (rlpDataStreamRaw p)

/-- `verify_package` (signatures.rs): `sig.unwrap()` panics when the
signature is absent; otherwise `Some`/`None` is reported as
`true`/`false` according to `verify_strict` over the canonical digest. -/
def verifyPackage (C : CryptoModel) (p : Package) : POutcome Bool :=
  match p.sig with
  | none => .panic
  | some s => .ok (C.verifyStrict p.maintainer (computeDataIntegrity C p) s)

/-- `sign_package` (signatures.rs): the signing key applied to the
canonical digest; `signF` is the signature function of the caller's
`SigningKey`. -/
def signPackage (C : CryptoModel) (signF : List Nat → List Nat) (p : Package) : List Nat :=
  signF (computeDataIntegrity C p)

/-- `impl Serialize for Package` (the external JSON serializer): the
emitted field sequence, or a panic when the signature is absent. -/
def serializePackage (p : Package) :
    POutcome (List Nat × List Nat × Nat × List Nat × PackageIntegrity × List Nat) :=
  match p.sig with
  | none => .panic
  | some s => .ok (p.name, p.version, p.status.toU8, p.maintainer, p.integrity, s)

/-! ## Package wire decoding -/

/-- `Rlp::val_at::<String>/::<Vec<u8>>`: raw item `i`, value-decoded. -/
def valAtData (bytes : List Nat) (i : Nat) : Except DecoderError (List Nat) :=
  match valAtRaw bytes i with
  | .error e => .error e
  | .ok raw => decodeValue raw

/-- `Rlp::val_at::<u8>`. -/
def valAtU8 (bytes : List Nat) (i : Nat) : Except DecoderError Nat :=
  match valAtRaw bytes i with
  | .error e => .error e
  | .ok raw => decodeU8 raw

/-- `rlp::decode::<PackageIntegrity>`: `val_at(0)` then `val_at(1)`. -/
def decodeIntegrity (bytes : List Nat) : Except DecoderError PackageIntegrity :=
  match valAtData bytes 0 with
  | .error e => .error e
  | .ok alg =>
    match valAtData bytes 1 with
    | .error e => .error e
    | .ok hash => .ok ⟨alg, hash⟩

/-- `impl Decodable for Package` (package.rs): fields in order; a
status byte outside 0..=5 is mapped to `RlpInconsistentLengthAndData`;
a maintainer that is not exactly 32 bytes panics in `copy_from_slice`;
32 maintainer bytes rejected by `VerifyingKey::from_bytes` panic in the
subsequent `unwrap`; a signature that is not exactly 64 bytes panics in
`copy_from_slice`. -/
def decodePackage (C : CryptoModel) (bytes : List Nat) : POutcome Package :=
  match valAtData bytes 0 with
  | .error e => .err e
  | .ok name =>
  match valAtData bytes 1 with
  | .error e => .err e
  | .ok version =>
  match valAtU8 bytes 2 with
  | .error e => .err e
  | .ok rawStatus =>
  match PackageStatus.tryFrom rawStatus with
  | none => .err .RlpInconsistentLengthAndData
  | some status =>
  match valAtData bytes 3 with
  | .error e => .err e
  | .ok mBytes =>
  if mBytes.length ≠ 32 then .panic
  else if C.keyValid mBytes = false then .panic
  else
  match listAtU8 bytes 4 with
  | .error e => .err e
  | .ok rawInteg =>
  match decodeIntegrity rawInteg with
  | .error e => .err e
  | .ok integ =>
  match valAtData bytes 5 with
  | .error e => .err e
  | .ok sigBytes =>
  if sigBytes.length ≠ 64 then .panic
  else .ok ⟨name, version, status, mBytes, integ, some sigBytes⟩

/-- Size constraint satisfied by every value a 64-bit Rust process can
hold (field level; generous bound that keeps all derived encodings
below the `usize` limit). -/
def bytesLenOk (l : List Nat) : Prop := l.length < 2 ^ 32

/-- Well-formedness of a package as a Rust value: every byte-string
field is of representable length. -/
def Package.wf (p : Package) : Prop :=
  bytesLenOk p.name ∧ bytesLenOk p.version ∧ bytesLenOk p.maintainer ∧
    bytesLenOk p.integrity.algorithm ∧ bytesLenOk p.integrity.archive_hash ∧
    bytesLenOk (p.sig.getD [])

/-! ## Wire-level item decomposition -/

theorem subItemsRaw_encBytes_cons (bs rest : List Nat) (h : bs.length < 2 ^ 64) :
    subItemsRaw (rlpEncBytes bs ++ rest) = rlpEncBytes bs :: subItemsRaw rest :=
  subItemsRaw_of_split (splitItem_encBytes bs rest h)

theorem subItemsRaw_encU8_cons (v : Nat) (rest : List Nat) :
    subItemsRaw (rlpEncU8 v ++ rest) = rlpEncU8 v :: subItemsRaw rest := by
  unfold rlpEncU8
  exact subItemsRaw_of_split (splitItem_encBytes _ rest (by split <;> simp))

theorem subItemsRaw_encList_cons (p rest : List Nat) (h : p.length < 2 ^ 64) :
    subItemsRaw (rlpEncList p ++ rest) = rlpEncList p :: subItemsRaw rest :=
  subItemsRaw_of_split (splitItem_encList p rest h)

theorem subItemsRaw_encBytes_single (bs : List Nat) (h : bs.length < 2 ^ 64) :
    subItemsRaw (rlpEncBytes bs) = [rlpEncBytes bs] := by
  have := subItemsRaw_encBytes_cons bs [] h
  rw [List.append_nil] at this
  rw [this, subItemsRaw_nil]

/-- The six raw items of the wire payload of a signed package. -/
theorem wire_items (p : Package) (s : List Nat) (hwf : p.wf) (hsig : p.sig = some s) :
    subItemsRaw (rlpDataStreamRaw p ++ rlpEncBytes s) =
      [rlpEncBytes p.name, rlpEncBytes p.version, rlpEncU8 p.status.toU8,
        rlpEncBytes p.maintainer, integrityWire p.integrity, rlpEncBytes s] := by
  obtain ⟨h1, h2, h3, h4, h5, h6⟩ := hwf
  have hs : bytesLenOk s := by rw [hsig] at h6; exact h6
  unfold rlpDataStreamRaw integrityWire
  have hIntLen : (rlpEncIntegrity p.integrity).length
      ≤ p.integrity.algorithm.length + p.integrity.archive_hash.length + 27 := by
    have hb1 := rlpEncBytes_length_le p.integrity.algorithm (by
      unfold bytesLenOk at h4; omega)
    have hb2 := rlpEncBytes_length_le p.integrity.archive_hash (by
      unfold bytesLenOk at h5; omega)
    have hb3 := rlpEncList_length_le
      (rlpEncBytes p.integrity.algorithm ++ rlpEncBytes p.integrity.archive_hash) (by
        simp only [List.length_append]
        unfold bytesLenOk at h4 h5; omega)
    unfold rlpEncIntegrity
    simp only [List.length_append] at hb3 ⊢
    omega
  have hwire : (u8Items (rlpEncIntegrity p.integrity)).length < 2 ^ 64 := by
    have hb4 := u8Items_length_le (rlpEncIntegrity p.integrity)
    unfold bytesLenOk at h4 h5
    omega
  simp only [List.append_assoc]
  rw [subItemsRaw_encBytes_cons _ _ (by unfold bytesLenOk at h1; omega),
    subItemsRaw_encBytes_cons _ _ (by unfold bytesLenOk at h2; omega),
    subItemsRaw_encU8_cons,
    subItemsRaw_encBytes_cons _ _ (by unfold bytesLenOk at h3; omega),
    subItemsRaw_encList_cons _ _ hwire,
    subItemsRaw_encBytes_single s (by unfold bytesLenOk at hs; omega)]

/-- Total length bound of the wire payload of a signed package. -/
theorem wire_payload_length (p : Package) (s : List Nat) (hwf : p.wf) (hsig : p.sig = some s) :
    (rlpDataStreamRaw p ++ rlpEncBytes s).length < 2 ^ 64 := by
  obtain ⟨h1, h2, h3, h4, h5, h6⟩ := hwf
  have hs : bytesLenOk s := by rw [hsig] at h6; exact h6
  unfold bytesLenOk at h1 h2 h3 h4 h5 hs
  have e1 := rlpEncBytes_length_le p.name (by omega)
  have e2 := rlpEncBytes_length_le p.version (by omega)
  have e3 := rlpEncU8_length_le p.status.toU8
  have e4 := rlpEncBytes_length_le p.maintainer (by omega)
  have e6 := rlpEncBytes_length_le s (by omega)
  have hIntLen : (rlpEncIntegrity p.integrity).length
      ≤ p.integrity.algorithm.length + p.integrity.archive_hash.length + 27 := by
    have hb1 := rlpEncBytes_length_le p.integrity.algorithm (by omega)
    have hb2 := rlpEncBytes_length_le p.integrity.archive_hash (by omega)
    have hb3 := rlpEncList_length_le
      (rlpEncBytes p.integrity.algorithm ++ rlpEncBytes p.integrity.archive_hash) (by
        simp only [List.length_append]; omega)
    unfold rlpEncIntegrity
    simp only [List.length_append] at hb3 ⊢
    omega
  have hb4 := u8Items_length_le (rlpEncIntegrity p.integrity)
  have hb5 : (integrityWire p.integrity).length
      ≤ (u8Items (rlpEncIntegrity p.integrity)).length + 9 := by
    apply rlpEncList_length_le
    omega
  unfold rlpDataStreamRaw
  simp only [List.length_append]
  omega

/-! ## Item extraction over an encoded top-level list -/

theorem valAtData_encList (payload : List Nat) (i : Nat) (items : List (List Nat))
    (it : List Nat) (hlen : payload.length < 2 ^ 64)
    (hsub : subItemsRaw payload = items) (hit : items.get? i = some it) :
    valAtData (rlpEncList payload) i = decodeValue it := by
  unfold valAtData valAtRaw
  rw [readTop_encList _ hlen]
  simp only []
  rw [hsub, hit]

theorem valAtU8_encList (payload : List Nat) (i : Nat) (items : List (List Nat))
    (it : List Nat) (hlen : payload.length < 2 ^ 64)
    (hsub : subItemsRaw payload = items) (hit : items.get? i = some it) :
    valAtU8 (rlpEncList payload) i = decodeU8 it := by
  unfold valAtU8 valAtRaw
  rw [readTop_encList _ hlen]
  simp only []
  rw [hsub, hit]

theorem listAtU8_encList (payload : List Nat) (i : Nat) (items : List (List Nat))
    (inner : List Nat) (hlen : payload.length < 2 ^ 64)
    (hsub : subItemsRaw payload = items)
    (hit : items.get? i = some (rlpEncList (u8Items inner)))
    (hinner : (u8Items inner).length < 2 ^ 64) :
    listAtU8 (rlpEncList payload) i = .ok inner := by
  unfold listAtU8 valAtRaw
  rw [readTop_encList _ hlen]
  simp only []
  rw [hsub, hit]
  simp only []
  unfold rlpEncList
  rw [parseHeader_headed 192 (u8Items inner).length true (u8Items inner)
    (Or.inr ⟨rfl, rfl⟩) hinner]
  simp only [if_pos rfl]
  rw [List.drop_left, List.take_length, subItemsRaw_u8Items, decodeU8All_u8join]
  simp

theorem integrity_u8Items_length (pi : PackageIntegrity)
    (ha : bytesLenOk pi.algorithm) (hh : bytesLenOk pi.archive_hash) :
    (u8Items (rlpEncIntegrity pi)).length < 2 ^ 64 := by
  unfold bytesLenOk at ha hh
  have hb3 : (rlpEncIntegrity pi).length
      ≤ pi.algorithm.length + pi.archive_hash.length + 27 := by
    have hb1 := rlpEncBytes_length_le pi.algorithm (by omega)
    have hb2 := rlpEncBytes_length_le pi.archive_hash (by omega)
    have hb := rlpEncList_length_le
      (rlpEncBytes pi.algorithm ++ rlpEncBytes pi.archive_hash) (by
        simp only [List.length_append]; omega)
    unfold rlpEncIntegrity
    simp only [List.length_append] at hb ⊢
    omega
  have hb4 := u8Items_length_le (rlpEncIntegrity pi)
  omega

/-- Round trip of the nested integrity codec. -/
theorem decodeIntegrity_enc (pi : PackageIntegrity)
    (ha : bytesLenOk pi.algorithm) (hh : bytesLenOk pi.archive_hash) :
    decodeIntegrity (rlpEncIntegrity pi) = .ok pi := by
  have h64a : pi.algorithm.length < 2 ^ 64 := by unfold bytesLenOk at ha; omega
  have h64h : pi.archive_hash.length < 2 ^ 64 := by unfold bytesLenOk at hh; omega
  have hpay : (rlpEncBytes pi.algorithm ++ rlpEncBytes pi.archive_hash).length < 2 ^ 64 := by
    have hb1 := rlpEncBytes_length_le pi.algorithm h64a
    have hb2 := rlpEncBytes_length_le pi.archive_hash h64h
    simp only [List.length_append]
    unfold bytesLenOk at ha hh
    omega
  have hsub : subItemsRaw (rlpEncBytes pi.algorithm ++ rlpEncBytes pi.archive_hash) =
      [rlpEncBytes pi.algorithm, rlpEncBytes pi.archive_hash] := by
    rw [subItemsRaw_encBytes_cons _ _ h64a, subItemsRaw_encBytes_single _ h64h]
  unfold decodeIntegrity rlpEncIntegrity
  rw [valAtData_encList _ 0 _ _ hpay hsub rfl, decodeValue_encBytes pi.algorithm h64a]
  simp only []
  rw [valAtData_encList _ 1 _ _ hpay hsub rfl, decodeValue_encBytes pi.archive_hash h64h]

/-- Decoding the wire bytes of a signed well-formed package restores
the package (the core of the wire round trip). -/
theorem decodePackage_wire (C : CryptoModel) (p : Package) (s : List Nat)
    (hwf : p.wf) (hsig : p.sig = some s)
    (hm : p.maintainer.length = 32) (hkv : C.keyValid p.maintainer = true)
    (hs64 : s.length = 64) :
    decodePackage C (rlpEncList (rlpDataStreamRaw p ++ rlpEncBytes s)) = .ok p := by
  obtain ⟨h1, h2, h3, h4, h5, h6⟩ := hwf
  have hitems := wire_items p s ⟨h1, h2, h3, h4, h5, h6⟩ hsig
  have hpay := wire_payload_length p s ⟨h1, h2, h3, h4, h5, h6⟩ hsig
  unfold decodePackage
  rw [valAtData_encList _ 0 _ _ hpay hitems rfl,
    decodeValue_encBytes p.name (by unfold bytesLenOk at h1; omega)]
  simp only []
  rw [valAtData_encList _ 1 _ _ hpay hitems rfl,
    decodeValue_encBytes p.version (by unfold bytesLenOk at h2; omega)]
  simp only []
  rw [valAtU8_encList _ 2 _ _ hpay hitems rfl, decodeU8_encU8]
  simp only []
  rw [PackageStatus.tryFrom_toU8]
  simp only []
  rw [valAtData_encList _ 3 _ _ hpay hitems rfl,
    decodeValue_encBytes p.maintainer (by unfold bytesLenOk at h3; omega)]
  simp only []
  rw [if_neg (by simp [hm])]
  rw [if_neg (by simp [hkv])]
  rw [listAtU8_encList _ 4 _ (rlpEncIntegrity p.integrity) hpay hitems rfl
    (integrity_u8Items_length p.integrity h4 h5)]
  simp only []
  rw [decodeIntegrity_enc p.integrity h4 h5]
  simp only []
  rw [valAtData_encList _ 5 _ _ hpay hitems rfl,
    decodeValue_encBytes s (by omega)]
  simp only []
  rw [if_neg (by simp [hs64])]
  rw [← hsig]

/-! ## Store documents (db/documents) and hex encoding -/

/-- One lowercase hex digit character (as `hex::encode` emits:
`0-9` then `a-f`), as an ASCII byte. -/
def hexDigit (d : Nat) : Nat := if d < 10 then 48 + d else 87 + d

/-- `hex::encode`: two lowercase hex characters per byte, as the bytes
of the resulting ASCII string. -/
def hexEncode : List Nat → List Nat
  | [] => []
  | b :: t => hexDigit (b / 16) :: hexDigit (b % 16) :: hexEncode t

theorem hexDigit_ne_colon (d : Nat) : hexDigit d ≠ 58 := by
  unfold hexDigit
  split <;> omega

theorem colon_not_mem_hexEncode (l : List Nat) : 58 ∉ hexEncode l := by
  induction l with
  | nil => simp [hexEncode]
  | cons b t ih =>
    simp only [hexEncode, List.mem_cons, not_or]
    exact ⟨fun h => hexDigit_ne_colon _ h.symm, fun h => hexDigit_ne_colon _ h.symm, ih⟩

/-- `PackageIntegrityDocument { algorithm: String, archive_hash: String }`
(the hash is stored hex-encoded). -/
structure PackageIntegrityDocument where
  algorithm : List Nat
  archive_hash : List Nat
  deriving DecidableEq, Repr

/-- `PackageDocument`: how a package row is stored.  `status` is the
`i32` obtained from the status byte; `maintainer` and `sig` are stored
as hex text.  (The Rust document also declares an `archive_url` text
field; the `Package` of package.rs carries no such field, so it plays
no part in any modelled operation and is omitted.) -/
structure PackageDocument where
  name : List Nat
  version : List Nat
  status : Nat
  maintainer : List Nat
  integrity : PackageIntegrityDocument
  sig : List Nat
  blockchain_label : List Nat
  deriving DecidableEq, Repr

/-- `BlockchainDocument { label, last_synchronization }`.  The Rust
field holds the decimal string of the `u64` watermark; the value is
modelled directly. -/
structure BlockchainDocument where
  label : List Nat
  last_synchronization : Nat
  deriving DecidableEq, Repr

/-- `PackageIntegrityDocumentBuilder::from_package_integrity(..).build()`. -/
def PackageIntegrityDocument.fromIntegrity (pi : PackageIntegrity) : PackageIntegrityDocument :=
  ⟨pi.algorithm, hexEncode pi.archive_hash⟩

/-- `PackageDocumentBuilder::from_package(..).build()`.  The builder
calls `package.sig.unwrap()`: every package reaching this path was
decoded from the wire and therefore carries a signature, which the
`getD` default never masks on reachable inputs. -/
def docFromPackage (label : List Nat) (p : Package) : PackageDocument :=
  { name := p.name
    version := p.version
    status := p.status.toU8
    maintainer := hexEncode p.maintainer
    integrity := .fromIntegrity p.integrity
    sig := hexEncode (p.sig.getD [])
    blockchain_label := label }

/-! ## PackagesRepository (services/db/packages_repository.rs) -/

/-- `get_composite_key`: `format!("{}:{}:{}:{}", label, name, version,
maintainer)`. -/
def getCompositeKey (d : PackageDocument) : List Nat :=
  d.blockchain_label ++ (58 :: (d.name ++ (58 :: (d.version ++ (58 :: d.maintainer)))))

/-- `str::split(":")` on the bytes of a string (the separator byte 58
never occurs inside a multi-byte UTF-8 sequence). -/
def splitSep : List Nat → List (List Nat)
  | [] => [[]]
  | b :: rest =>
    if b = 58 then [] :: splitSep rest
    else
      match splitSep rest with
      | [] => [[b]]
      | h :: t => (b :: h) :: t

/-- `get_composite_key_parts`: the first four fragments of the split.
The Rust code indexes `splitted_key[0..=3]` and would panic on a key
with fewer than four fragments; every key produced by
`get_composite_key` contains three separators and so always splits
into at least four fragments, making the `getD` defaults exact on all
reachable inputs. -/
def getCompositeKeyParts (key : List Nat) :
    List Nat × List Nat × List Nat × List Nat :=
  let parts := splitSep key
  (parts.getD 0 [], parts.getD 1 [], parts.getD 2 [], parts.getD 3 [])

theorem splitSep_append_colon (a rest : List Nat) (ha : 58 ∉ a) :
    splitSep (a ++ 58 :: rest) = a :: splitSep rest := by
  induction a with
  | nil => simp [splitSep]
  | cons x t ih =>
    simp only [List.mem_cons, not_or] at ha
    obtain ⟨hx, ht⟩ := ha
    simp only [List.cons_append, splitSep, if_neg (by omega : ¬x = 58), List.append_eq]
    rw [ih ht]

theorem splitSep_no_colon (a : List Nat) (ha : 58 ∉ a) : splitSep a = [a] := by
  induction a with
  | nil => rfl
  | cons x t ih =>
    simp only [List.mem_cons, not_or] at ha
    obtain ⟨hx, ht⟩ := ha
    simp only [splitSep, if_neg (by omega : ¬x = 58)]
    rw [ih ht]

/-- The filter predicate of `read_by_key` / `update` (the bson query on
the four key fields). -/
def docMatches (label name version maintainer : List Nat) (d : PackageDocument) : Bool :=
  d.name == name && d.version == version && d.maintainer == maintainer &&
    d.blockchain_label == label

/-- `read_by_key`: split the key, `find_one` on the four fields
(first matching row of the collection). -/
def readByKey (key : List Nat) (col : List PackageDocument) : Option PackageDocument :=
  match getCompositeKeyParts key with
  | (label, name, version, maintainer) =>
    col.find? (docMatches label name version maintainer)

/-- `create`: `insert_one` (appends a row). -/
def createDoc (d : PackageDocument) (col : List PackageDocument) : List PackageDocument :=
  col ++ [d]

/-- `update_one` with `$set`-of-all-fields: replace the first matching
row, leave the collection unchanged when nothing matches. -/
def updateFirst (p : PackageDocument → Bool) (new : PackageDocument) :
    List PackageDocument → List PackageDocument
  | [] => []
  | d :: ds => if p d then new :: ds else d :: updateFirst p new ds

/-- `update`: split the key and `update_one` on the four fields. -/
def updateDoc (key : List Nat) (new : PackageDocument) (col : List PackageDocument) :
    List PackageDocument :=
  match getCompositeKeyParts key with
  | (label, name, version, maintainer) =>
    updateFirst (docMatches label name version maintainer) new col

/-! ## Sync pipeline (blockchains/blockchain.rs, services/blockchains.rs) -/

/-- `BlockchainError` (the transport-level variants). -/
inductive BlockchainError where
  | ConnectionConfig
  | ConnectionFailure
  | NoPackagesData
  deriving DecidableEq, Repr

/-- `BlockchainsService::process_package_update`: check existence under
the composite key, then `update_package` or `add`. -/
def processPackageUpdate (label : List Nat) (p : Package) (col : List PackageDocument) :
    List PackageDocument :=
  let doc := docFromPackage label p
  let key := getCompositeKey doc
  match readByKey key col with
  | some _ => updateDoc key doc col
  | none => createDoc doc col

/-- `update_one` on the `blockchains` collection by label. -/
def updateFirstB (label : List Nat) (new : BlockchainDocument) :
    List BlockchainDocument → List BlockchainDocument
  | [] => []
  | d :: ds => if d.label == label then new :: ds else d :: updateFirstB label new ds

/-- The state a sync pass touches: the two collections and the selected
client's in-memory watermark. -/
structure SyncState where
  packagesCol : List PackageDocument
  blockchainsCol : List BlockchainDocument
  lastSync : Nat
  deriving DecidableEq, Repr

/-- Outcome of one sync pass, with the state and the packages forwarded
on the out-channel up to that point. -/
inductive PassResult where
  | ok (st : SyncState) (out : List Package)
  | fail (e : BlockchainError) (st : SyncState) (out : List Package)
  | panic (st : SyncState) (out : List Package)
  deriving DecidableEq, Repr

def PassResult.state : PassResult → SyncState
  | .ok st _ => st
  | .fail _ st _ => st
  | .panic st _ => st

def PassResult.outs : PassResult → List Package
  | .ok _ o => o
  | .fail _ _ o => o
  | .panic _ o => o

/-- One sync pass over the raw channel contents `msgs`, combining
`BlockchainClient::read_packages` (decode, verify, forward, and on
clean end-of-stream `set_last_sync(now)`) with
`BlockchainsService::update` (store each verified package, forward it,
and on clean completion upsert the ledger document with the client's
watermark).  A transport error aborts the pass before any watermark
write; a decoder panic aborts the process. -/
def runPassFrom (C : CryptoModel) (label : List Nat) (now : Nat)
    (msgs : List (Except BlockchainError (List Nat)))
    (st : SyncState) (out : List Package) : PassResult :=
  match msgs with
  | [] =>
    .ok { st with
            lastSync := now
            blockchainsCol := updateFirstB label ⟨label, now⟩ st.blockchainsCol } out
  | .error e :: _ => .fail e st out
  | .ok bytes :: rest =>
    match decodePackage C bytes with
    | .err _ => runPassFrom C label now rest st out
    | .panic => .panic st out
    | .ok pkg =>
      match verifyPackage C pkg with
      | .panic => .panic st out
      | .err _ => .panic st out
      | .ok b =>
        if b then
          runPassFrom C label now rest
            { st with packagesCol := processPackageUpdate label pkg st.packagesCol }
            (out ++ [pkg])
        else runPassFrom C label now rest st out

/-- A full sync pass (empty out-channel at start). -/
def runPass (C : CryptoModel) (label : List Nat) (now : Nat)
    (msgs : List (Except BlockchainError (List Nat))) (st : SyncState) : PassResult :=
  runPassFrom C label now msgs st []

/-! ## Concrete instances used by witnesses and counterexamples -/

set_option maxRecDepth 100000

/-- A trivial instantiation of the abstract crypto primitives, used to
evaluate the plumbing on concrete inputs. -/
def CryptoTrue : CryptoModel :=
  ⟨fun l => l, fun _ _ _ => true, fun _ => true⟩

/-- A crypto instantiation whose strict verification accepts exactly
the signatures its signing function produces. -/
def CryptoPair : CryptoModel :=
  ⟨fun l => l, fun key msg sig => sig == key ++ msg, fun _ => true⟩

/-- "foo" 1.2.3, Fine, 32-byte maintainer, SHA256 integrity,
64-byte signature. -/
def samplePkg : Package :=
  { name := [102, 111, 111]
    version := [49, 46, 50, 46, 51]
    status := .Fine
    maintainer := List.replicate 32 1
    integrity := ⟨[83, 72, 65, 50, 53, 54], List.replicate 32 7⟩
    sig := some (List.replicate 64 2) }

def sampleSig : List Nat := List.replicate 64 2

def samplePkgNoSig : Package := { samplePkg with sig := none }

def sampleWire : List Nat :=
  rlpEncList (rlpDataStreamRaw samplePkg ++ rlpEncBytes sampleSig)

deriving instance DecidableEq for Except

/-- Number of elements of the top-level wire list
(`Rlp::item_count` on a well-formed frame). -/
def wireItemCount (bytes : List Nat) : Except DecoderError Nat :=
  match readTop bytes with
  | .error e => .error e
  | .ok payload => .ok (subItemsRaw payload).length

theorem samplePkg_wf : samplePkg.wf := by
  unfold Package.wf bytesLenOk
  refine ⟨by decide, by decide, by decide, by decide, by decide, by decide⟩

/-! ## Claim C1 -/

/-- Claim C1, counterexample: the wire encoding of a concrete signed
package is an RLP list of exactly 6 elements, not 7 as claimed; the
`Package` of package.rs carries no archive-url field that could be a
fifth element. -/
theorem c1_counterexample_six_elements :
    rlpEncodePackage samplePkg = .ok sampleWire ∧
      wireItemCount sampleWire = .ok 6 ∧ (6 : Nat) ≠ 7 := by
  refine ⟨rfl, by decide, by decide⟩

/-- Claim C1, amended: the canonical wire encoding of a signed Package
is an RLP list of exactly 6 elements in the fixed order
`[name, version, status_u8, maintainer, integrity_wrapper, sig]`;
there is no archive-url element, and the integrity element is not the
2-element list itself but a list whose items are the bytes of the RLP
encoding of the 2-element list `[algorithm, archive_hash]` (each byte
encoded as a `u8`), from which the 2-element list is recovered by a
nested decode. -/
theorem c1_amended_wire_contract (p : Package) (s : List Nat)
    (hwf : p.wf) (hsig : p.sig = some s) :
    ∃ w, rlpEncodePackage p = .ok w ∧
      wireItemCount w = .ok 6 ∧
      valAtData w 0 = .ok p.name ∧
      valAtData w 1 = .ok p.version ∧
      valAtU8 w 2 = .ok p.status.toU8 ∧
      valAtData w 3 = .ok p.maintainer ∧
      listAtU8 w 4 = .ok (rlpEncIntegrity p.integrity) ∧
      decodeIntegrity (rlpEncIntegrity p.integrity) = .ok p.integrity ∧
      valAtData w 5 = .ok s := by
  obtain ⟨h1, h2, h3, h4, h5, h6⟩ := hwf
  have hs : bytesLenOk s := by rw [hsig] at h6; exact h6
  have hitems := wire_items p s ⟨h1, h2, h3, h4, h5, h6⟩ hsig
  have hpay := wire_payload_length p s ⟨h1, h2, h3, h4, h5, h6⟩ hsig
  refine ⟨rlpEncList (rlpDataStreamRaw p ++ rlpEncBytes s), ?_, ?_, ?_, ?_, ?_, ?_, ?_, ?_, ?_⟩
  · unfold rlpEncodePackage
    rw [hsig]
  · unfold wireItemCount
    rw [readTop_encList _ hpay]
    simp only []
    rw [hitems]
    rfl
  · rw [valAtData_encList _ 0 _ _ hpay hitems rfl,
      decodeValue_encBytes p.name (by unfold bytesLenOk at h1; omega)]
  · rw [valAtData_encList _ 1 _ _ hpay hitems rfl,
      decodeValue_encBytes p.version (by unfold bytesLenOk at h2; omega)]
  · rw [valAtU8_encList _ 2 _ _ hpay hitems rfl, decodeU8_encU8]
  · rw [valAtData_encList _ 3 _ _ hpay hitems rfl,
      decodeValue_encBytes p.maintainer (by unfold bytesLenOk at h3; omega)]
  · exact listAtU8_encList _ 4 _ (rlpEncIntegrity p.integrity) hpay hitems rfl
      (integrity_u8Items_length p.integrity h4 h5)
  · exact decodeIntegrity_enc p.integrity h4 h5
  · rw [valAtData_encList _ 5 _ _ hpay hitems rfl,
      decodeValue_encBytes s (by unfold bytesLenOk at hs; omega)]

/-- Claim C1 amended, witness at a concrete package. -/
theorem c1_amended_witness :
    ∃ w, rlpEncodePackage samplePkg = .ok w ∧
      wireItemCount w = .ok 6 ∧
      valAtData w 0 = .ok samplePkg.name ∧
      valAtData w 1 = .ok samplePkg.version ∧
      valAtU8 w 2 = .ok samplePkg.status.toU8 ∧
      valAtData w 3 = .ok samplePkg.maintainer ∧
      listAtU8 w 4 = .ok (rlpEncIntegrity samplePkg.integrity) ∧
      decodeIntegrity (rlpEncIntegrity samplePkg.integrity) = .ok samplePkg.integrity ∧
      valAtData w 5 = .ok sampleSig :=
  c1_amended_wire_contract samplePkg sampleSig samplePkg_wf rfl

/-! ## Claim C2 -/

/-- Claim C2: for every Package carrying a signature, `verify` returns
exactly the boolean outcome of Ed25519 strict verification of the sig
under the maintainer key over the canonical digest
(`SHA256(rlp_encode_data(pkg))`, signature excluded); and `sign`
computes that same digest, so a package signed with a private key whose
signatures verify under `p.maintainer` verifies. -/
theorem c2_verify_iff_strict_and_sign_roundtrip (C : CryptoModel) (p : Package)
    (s : List Nat) (hsig : p.sig = some s) (signF : List Nat → List Nat)
    (hmatch : ∀ m, C.verifyStrict p.maintainer m (signF m) = true) :
    verifyPackage C p =
        .ok (C.verifyStrict p.maintainer (computeDataIntegrity C p) s) ∧
      verifyPackage C { p with sig := some (signPackage C signF p) } = .ok true := by
  constructor
  · unfold verifyPackage
    rw [hsig]
  · show POutcome.ok (C.verifyStrict p.maintainer
      (computeDataIntegrity C { p with sig := some (signPackage C signF p) })
      (signPackage C signF p)) = .ok true
    exact congrArg POutcome.ok (hmatch (computeDataIntegrity C p))

/-- Claim C2, witness at a concrete package with a matching toy
signing function. -/
theorem c2_witness :
    verifyPackage CryptoPair samplePkg =
        .ok (CryptoPair.verifyStrict samplePkg.maintainer
          (computeDataIntegrity CryptoPair samplePkg) sampleSig) ∧
      verifyPackage CryptoPair
        { samplePkg with
            sig := some (signPackage CryptoPair
              (fun m => samplePkg.maintainer ++ m) samplePkg) } = .ok true :=
  c2_verify_iff_strict_and_sign_roundtrip CryptoPair samplePkg sampleSig rfl
    (fun m => samplePkg.maintainer ++ m) (fun m => by simp [CryptoPair])

/-! ## Claim C3 -/

/-- Claim C3: wire round trip.  For every well-formed Package with a
signature attached (32-byte maintainer accepted by the key parser,
64-byte signature), decoding the wire encoding yields the same Package,
field by field: name, version, status, maintainer, integrity and sig. -/
theorem c3_wire_roundtrip (C : CryptoModel) (p : Package) (s : List Nat)
    (hwf : p.wf) (hsig : p.sig = some s)
    (hm : p.maintainer.length = 32) (hkv : C.keyValid p.maintainer = true)
    (hs64 : s.length = 64) :
    ∃ w, rlpEncodePackage p = .ok w ∧ decodePackage C w = .ok p := by
  refine ⟨rlpEncList (rlpDataStreamRaw p ++ rlpEncBytes s), ?_, ?_⟩
  · unfold rlpEncodePackage
    rw [hsig]
  · exact decodePackage_wire C p s hwf hsig hm hkv hs64

/-- Claim C3, witness at a concrete package. -/
theorem c3_witness :
    ∃ w, rlpEncodePackage samplePkg = .ok w ∧
      decodePackage CryptoTrue w = .ok samplePkg :=
  c3_wire_roundtrip CryptoTrue samplePkg sampleSig samplePkg_wf rfl (by decide)
    rfl (by decide)

/-! ## Claim C7 -/

/-- A wire frame whose maintainer element is a single byte instead of
32 bytes. -/
def badKeyWire : List Nat :=
  rlpEncList (rlpEncBytes [102, 111, 111] ++ rlpEncBytes [49] ++ rlpEncU8 3 ++
    rlpEncBytes [170] ++ integrityWire samplePkg.integrity ++ rlpEncBytes sampleSig)

/-- A wire frame whose signature element is 3 bytes instead of 64. -/
def badSigWire : List Nat :=
  rlpEncList (rlpEncBytes [102, 111, 111] ++ rlpEncBytes [49] ++ rlpEncU8 3 ++
    rlpEncBytes (List.replicate 32 1) ++ integrityWire samplePkg.integrity ++
    rlpEncBytes [1, 2, 3])

/-- A wire frame whose status byte is 6 (outside 0..=5). -/
def badStatusWire : List Nat :=
  rlpEncList (rlpEncBytes [102, 111, 111] ++ rlpEncBytes [49] ++ rlpEncU8 6 ++
    rlpEncBytes (List.replicate 32 1) ++ integrityWire samplePkg.integrity ++
    rlpEncBytes sampleSig)

/-- Claim C7: evaluation of the decoder at the claim's failing inputs.
A maintainer that is not 32 bytes makes decode panic in
`copy_from_slice` (the claim says it yields a distinct `BadKeyLength`
error); a signature that is not 64 bytes likewise panics (the claim
says `BadSigLength`); only the out-of-range status byte is reported as
an error, and it is the generic RLP error
`RlpInconsistentLengthAndData`, not a distinct `UnknownStatus` kind
(no such error kinds exist in the code). -/
theorem c7_decode_not_total :
    decodePackage CryptoTrue badKeyWire = .panic ∧
      decodePackage CryptoTrue badSigWire = .panic ∧
      decodePackage CryptoTrue badStatusWire = .err .RlpInconsistentLengthAndData := by
  refine ⟨by decide, by decide, by decide⟩

/-! ## Claim C8 -/

/-- Claim C8, counterexample: `verify_package` panics (in
`sig.unwrap()`) on a Package whose sig field is absent, instead of
reporting it unverified. -/
theorem c8_counterexample_verify_panics_without_sig :
    verifyPackage CryptoTrue samplePkgNoSig = .panic := rfl

/-- Claim C8, amended: for every Package whose sig field is present,
verification never panics: it returns a boolean (false meaning
unverified) even when the key or signature material is rejected by the
cryptographic verifier. -/
theorem c8_amended_verify_total_with_sig (C : CryptoModel) (p : Package)
    (h : p.sig ≠ none) : ∃ b, verifyPackage C p = .ok b := by
  cases hs : p.sig with
  | none => exact absurd hs h
  | some s =>
    refine ⟨C.verifyStrict p.maintainer (computeDataIntegrity C p) s, ?_⟩
    unfold verifyPackage
    rw [hs]

/-- Claim C8 amended, witness at a concrete package. -/
theorem c8_witness : ∃ b, verifyPackage CryptoTrue samplePkg = .ok b :=
  c8_amended_verify_total_with_sig CryptoTrue samplePkg (by
    unfold samplePkg
    simp)

/-! ## Claim C9 -/

/-- Claim C9: evaluation at the failing input.  Both the wire (RLP)
encoder and the external serializer panic on a Package whose sig is
absent ("Signature must be attached to package when
encoding/serializing it") instead of surfacing a typed error as the
claim requires. -/
theorem c9_encode_and_serialize_panic_without_sig :
    rlpEncodePackage samplePkgNoSig = .panic ∧
      serializePackage samplePkgNoSig = .panic :=
  ⟨rfl, rfl⟩

/-! ## Pipeline state lemmas (claims C4, C5) -/

def sampleLabel : List Nat := [104, 101, 100, 101, 114, 97]

def emptyState : SyncState := ⟨[], [⟨sampleLabel, 0⟩], 0⟩

theorem runPassFrom_fail_state (C : CryptoModel) (label : List Nat) (now : Nat) :
    ∀ (msgs : List (Except BlockchainError (List Nat))) (st : SyncState)
      (out : List Package) (e : BlockchainError) (st' : SyncState) (out' : List Package),
      runPassFrom C label now msgs st out = .fail e st' out' →
      st'.lastSync = st.lastSync ∧ st'.blockchainsCol = st.blockchainsCol := by
  intro msgs
  induction msgs with
  | nil =>
    intro st out e st' out' h
    simp [runPassFrom] at h
  | cons m rest ih =>
    intro st out e st' out' h
    match m with
    | .error e2 =>
      simp only [runPassFrom] at h
      cases h
      exact ⟨rfl, rfl⟩
    | .ok bytes =>
      simp only [runPassFrom] at h
      match hd : decodePackage C bytes with
      | .err e3 =>
        rw [hd] at h
        exact ih st out e st' out' h
      | .panic =>
        rw [hd] at h
        cases h
      | .ok pkg =>
        rw [hd] at h
        simp only [] at h
        match hv : verifyPackage C pkg with
        | .panic => rw [hv] at h; cases h
        | .err e4 => rw [hv] at h; cases h
        | .ok b =>
          rw [hv] at h
          simp only [] at h
          cases b
          · rw [if_neg Bool.false_ne_true] at h
            exact ih st out e st' out' h
          · rw [if_pos rfl] at h
            exact ih { st with packagesCol := processPackageUpdate label pkg st.packagesCol }
              (out ++ [pkg]) e st' out' h

theorem runPassFrom_panic_state (C : CryptoModel) (label : List Nat) (now : Nat) :
    ∀ (msgs : List (Except BlockchainError (List Nat))) (st : SyncState)
      (out : List Package) (st' : SyncState) (out' : List Package),
      runPassFrom C label now msgs st out = .panic st' out' →
      st'.lastSync = st.lastSync ∧ st'.blockchainsCol = st.blockchainsCol := by
  intro msgs
  induction msgs with
  | nil =>
    intro st out st' out' h
    simp [runPassFrom] at h
  | cons m rest ih =>
    intro st out st' out' h
    match m with
    | .error e2 =>
      simp only [runPassFrom] at h
      cases h
    | .ok bytes =>
      simp only [runPassFrom] at h
      match hd : decodePackage C bytes with
      | .err e3 =>
        rw [hd] at h
        exact ih st out st' out' h
      | .panic =>
        rw [hd] at h
        cases h
        exact ⟨rfl, rfl⟩
      | .ok pkg =>
        rw [hd] at h
        simp only [] at h
        match hv : verifyPackage C pkg with
        | .panic =>
          rw [hv] at h
          cases h
          exact ⟨rfl, rfl⟩
        | .err e4 =>
          rw [hv] at h
          cases h
          exact ⟨rfl, rfl⟩
        | .ok b =>
          rw [hv] at h
          simp only [] at h
          cases b
          · rw [if_neg Bool.false_ne_true] at h
            exact ih st out st' out' h
          · rw [if_pos rfl] at h
            exact ih { st with packagesCol := processPackageUpdate label pkg st.packagesCol }
              (out ++ [pkg]) st' out' h

theorem runPassFrom_ok_state (C : CryptoModel) (label : List Nat) (now : Nat) :
    ∀ (msgs : List (Except BlockchainError (List Nat))) (st : SyncState)
      (out : List Package) (st' : SyncState) (out' : List Package),
      runPassFrom C label now msgs st out = .ok st' out' →
      st'.lastSync = now ∧
        st'.blockchainsCol = updateFirstB label ⟨label, now⟩ st.blockchainsCol := by
  intro msgs
  induction msgs with
  | nil =>
    intro st out st' out' h
    simp only [runPassFrom] at h
    cases h
    exact ⟨rfl, rfl⟩
  | cons m rest ih =>
    intro st out st' out' h
    match m with
    | .error e2 =>
      simp only [runPassFrom] at h
      cases h
    | .ok bytes =>
      simp only [runPassFrom] at h
      match hd : decodePackage C bytes with
      | .err e3 =>
        rw [hd] at h
        exact ih st out st' out' h
      | .panic =>
        rw [hd] at h
        cases h
      | .ok pkg =>
        rw [hd] at h
        simp only [] at h
        match hv : verifyPackage C pkg with
        | .panic => rw [hv] at h; cases h
        | .err e4 => rw [hv] at h; cases h
        | .ok b =>
          rw [hv] at h
          simp only [] at h
          cases b
          · rw [if_neg Bool.false_ne_true] at h
            exact ih st out st' out' h
          · rw [if_pos rfl] at h
            exact ih { st with packagesCol := processPackageUpdate label pkg st.packagesCol }
              (out ++ [pkg]) st' out' h

/-! ## Claim C5 -/

/-- Claim C5: the per-ledger watermark is written only on clean
end-of-stream.  A pass that fails with a transport error (or dies in a
decoder panic) leaves both the client's in-memory watermark and the
persisted ledger document exactly as they were, no matter how many
messages were already processed; a successful pass sets the in-memory
watermark to the end-of-pass clock value and upserts the ledger
document with it, once, at the end; and across successive successful
passes under a non-decreasing clock the watermark is non-decreasing. -/
theorem c5_watermark_only_on_success :
    (∀ (C : CryptoModel) (label : List Nat) (now : Nat) msgs (st : SyncState) e st' out',
        runPass C label now msgs st = .fail e st' out' →
        st'.lastSync = st.lastSync ∧ st'.blockchainsCol = st.blockchainsCol) ∧
      (∀ (C : CryptoModel) (label : List Nat) (now : Nat) msgs (st : SyncState) st' out',
        runPass C label now msgs st = .panic st' out' →
        st'.lastSync = st.lastSync ∧ st'.blockchainsCol = st.blockchainsCol) ∧
      (∀ (C : CryptoModel) (label : List Nat) (now : Nat) msgs (st : SyncState) st' out',
        runPass C label now msgs st = .ok st' out' →
        st'.lastSync = now ∧
          st'.blockchainsCol = updateFirstB label ⟨label, now⟩ st.blockchainsCol) ∧
      (∀ (C : CryptoModel) (label : List Nat) (now1 now2 : Nat) msgs1 msgs2
          (st st1 st2 : SyncState) out1 out2,
        now1 ≤ now2 →
        runPass C label now1 msgs1 st = .ok st1 out1 →
        runPass C label now2 msgs2 st1 = .ok st2 out2 →
        st1.lastSync ≤ st2.lastSync) := by
  refine ⟨?_, ?_, ?_, ?_⟩
  · intro C label now msgs st e st' out' h
    exact runPassFrom_fail_state C label now msgs st [] e st' out' h
  · intro C label now msgs st st' out' h
    exact runPassFrom_panic_state C label now msgs st [] st' out' h
  · intro C label now msgs st st' out' h
    exact runPassFrom_ok_state C label now msgs st [] st' out' h
  · intro C label now1 now2 msgs1 msgs2 st st1 st2 out1 out2 hle h1 h2
    rw [(runPassFrom_ok_state C label now1 msgs1 st [] st1 out1 h1).1,
      (runPassFrom_ok_state C label now2 msgs2 st1 [] st2 out2 h2).1]
    exact hle

/-- Claim C5, witness: a concrete successful pass sets the watermark
and the ledger document to the end-of-pass time. -/
theorem c5_witness :
    (⟨[], [⟨sampleLabel, 7⟩], 7⟩ : SyncState).lastSync = 7 ∧
      (⟨[], [⟨sampleLabel, 7⟩], 7⟩ : SyncState).blockchainsCol =
        updateFirstB sampleLabel ⟨sampleLabel, 7⟩ emptyState.blockchainsCol :=
  c5_watermark_only_on_success.2.2.1 CryptoTrue sampleLabel 7 [] emptyState
    ⟨[], [⟨sampleLabel, 7⟩], 7⟩ [] (by decide)

/-! ## Claim C4 -/

/-- Claim C4: evaluation at the failing stream.  A malformed message
whose maintainer field is not 32 bytes makes the decoder panic,
aborting the whole pass: nothing is stored or forwarded, and the
legitimate signed message that follows it in the same pass is lost —
the claim says such a message is skipped and later messages are
processed.  Removing the malformed message lets the same legitimate
message be decoded, verified, stored and forwarded. -/
theorem c4_decode_panic_aborts_pass :
    runPass CryptoTrue sampleLabel 100 [.ok badKeyWire, .ok sampleWire] emptyState =
        .panic emptyState [] ∧
      runPass CryptoTrue sampleLabel 100 [.ok sampleWire] emptyState =
        .ok ⟨[docFromPackage sampleLabel samplePkg], [⟨sampleLabel, 100⟩], 100⟩
          [samplePkg] := by
  refine ⟨by decide, by decide⟩

/-! ## Claim C10 -/

/-- Splitting the joined composite key recovers the four fields when
they contain no separator. -/
theorem parts_of_key (d : PackageDocument)
    (hl : 58 ∉ d.blockchain_label) (hn : 58 ∉ d.name)
    (hv : 58 ∉ d.version) (hm : 58 ∉ d.maintainer) :
    getCompositeKeyParts (getCompositeKey d) =
      (d.blockchain_label, d.name, d.version, d.maintainer) := by
  unfold getCompositeKeyParts getCompositeKey
  rw [splitSep_append_colon _ _ hl, splitSep_append_colon _ _ hn,
    splitSep_append_colon _ _ hv, splitSep_no_colon _ hm]
  rfl

/-- A document whose name contains the separator ":" (byte 58). -/
def colonNameDoc : PackageDocument :=
  ⟨[97, 58, 98], [49], 3, [109], ⟨[83], [55]⟩, [51], [76]⟩

/-- Two distinct documents whose composite keys are byte-identical:
label "a:b" with name "c" collides with label "a" and name "b:c"
shifted fields. -/
def docColA : PackageDocument :=
  ⟨[99], [100], 3, [101], ⟨[83], [55]⟩, [51], [97, 58, 98]⟩

def docColB : PackageDocument :=
  ⟨[98], [99], 3, [100, 58, 101], ⟨[83], [55]⟩, [51], [97]⟩

/-- Claim C10: the composite key joins the four fields with ":" and is
parsed back by splitting on ":".  The round trip holds for every
document whose fields contain no ":" (byte 58); a document whose name
contains ":" parses back to different parts; and two documents with
distinct field tuples can produce byte-identical keys, so one key
lookup can address two distinct composite tuples. -/
theorem c10_composite_key_split :
    (∀ d : PackageDocument, 58 ∉ d.blockchain_label → 58 ∉ d.name →
        58 ∉ d.version → 58 ∉ d.maintainer →
        getCompositeKeyParts (getCompositeKey d) =
          (d.blockchain_label, d.name, d.version, d.maintainer)) ∧
      getCompositeKeyParts (getCompositeKey colonNameDoc) ≠
        (colonNameDoc.blockchain_label, colonNameDoc.name, colonNameDoc.version,
          colonNameDoc.maintainer) ∧
      docColA ≠ docColB ∧ getCompositeKey docColA = getCompositeKey docColB := by
  exact ⟨parts_of_key, by decide, by decide, by decide⟩

/-- Claim C10, witness: the round trip at the concrete document built
from the sample package (maintainer and sig hex-encoded, hence
colon-free). -/
theorem c10_witness :
    getCompositeKeyParts (getCompositeKey (docFromPackage sampleLabel samplePkg)) =
      ((docFromPackage sampleLabel samplePkg).blockchain_label,
        (docFromPackage sampleLabel samplePkg).name,
        (docFromPackage sampleLabel samplePkg).version,
        (docFromPackage sampleLabel samplePkg).maintainer) :=
  c10_composite_key_split.1 (docFromPackage sampleLabel samplePkg)
    (by decide) (by decide) (by decide) (by decide)

/-! ## Claim C6: composite-key upsert machinery -/

/-- The composite-key tuple of a stored row. -/
def keyTuple (d : PackageDocument) : List Nat × List Nat × List Nat × List Nat :=
  (d.blockchain_label, d.name, d.version, d.maintainer)

/-- Row filter by composite-key tuple. -/
def keyMatches (k : List Nat × List Nat × List Nat × List Nat)
    (d : PackageDocument) : Bool :=
  decide (keyTuple d = k)

theorem keyMatches_iff {k : List Nat × List Nat × List Nat × List Nat}
    {d : PackageDocument} : keyMatches k d = true ↔ keyTuple d = k := by
  simp [keyMatches]

theorem docMatches_eq_keyMatches (l n v m : List Nat) (d : PackageDocument) :
    docMatches l n v m d = keyMatches (l, n, v, m) d := by
  by_cases h : keyTuple d = (l, n, v, m)
  · unfold keyTuple at h
    simp only [Prod.mk.injEq] at h
    obtain ⟨h1, h2, h3, h4⟩ := h
    simp [docMatches, keyMatches, keyTuple, h1, h2, h3, h4]
  · rw [keyMatches, decide_eq_false h]
    cases hm : docMatches l n v m d
    · rfl
    · exfalso
      apply h
      unfold docMatches at hm
      simp only [Bool.and_eq_true, beq_iff_eq] at hm
      unfold keyTuple
      simp [hm.1.1.1, hm.1.1.2, hm.1.2, hm.2]

/-- The store-level upsert the pipeline performs under a composite key:
replace the first row with that key, or append when absent. -/
def upsertDoc (doc : PackageDocument) (col : List PackageDocument) :
    List PackageDocument :=
  if (col.find? (keyMatches (keyTuple doc))).isSome
  then updateFirst (keyMatches (keyTuple doc)) doc col
  else col ++ [doc]

/-- For a package whose label, name and version are colon-free (the
stored maintainer is hex and never contains a colon),
`process_package_update` is exactly the composite-key upsert. -/
theorem processPackageUpdate_eq_upsertDoc (label : List Nat) (p : Package)
    (col : List PackageDocument)
    (hl : 58 ∉ label) (hn : 58 ∉ p.name) (hv : 58 ∉ p.version) :
    processPackageUpdate label p col = upsertDoc (docFromPackage label p) col := by
  have hm : 58 ∉ (docFromPackage label p).maintainer := colon_not_mem_hexEncode _
  have hparts := parts_of_key (docFromPackage label p) hl hn hv hm
  have hfun : docMatches (docFromPackage label p).blockchain_label
      (docFromPackage label p).name (docFromPackage label p).version
      (docFromPackage label p).maintainer = keyMatches (keyTuple (docFromPackage label p)) := by
    funext d
    exact docMatches_eq_keyMatches _ _ _ _ d
  unfold processPackageUpdate upsertDoc readByKey updateDoc createDoc
  simp only []
  rw [hparts]
  simp only []
  rw [hfun]
  cases hf : (col.find? (keyMatches (keyTuple (docFromPackage label p)))).isSome
  · rw [if_neg (by simp [hf])]
    match hfo : col.find? (keyMatches (keyTuple (docFromPackage label p))) with
    | none => rfl
    | some d => rw [hfo] at hf; simp at hf
  · rw [if_pos (by simp [hf])]
    match hfo : col.find? (keyMatches (keyTuple (docFromPackage label p))) with
    | none => rw [hfo] at hf; simp at hf
    | some d => rfl

/-- Left fold of composite-key upserts. -/
def upsertAll (ds : List PackageDocument) (col : List PackageDocument) :
    List PackageDocument :=
  ds.foldl (fun c d => upsertDoc d c) col

/-- The packages a pass decodes, verifies and stores, in order,
truncated at the first transport error or decoder panic.  It depends
only on the message stream, never on the store state. -/
def pkgStream (C : CryptoModel) :
    List (Except BlockchainError (List Nat)) → List Package
  | [] => []
  | .error _ :: _ => []
  | .ok bytes :: rest =>
    match decodePackage C bytes with
    | .err _ => pkgStream C rest
    | .panic => []
    | .ok pkg =>
      match verifyPackage C pkg with
      | .ok true => pkg :: pkgStream C rest
      | .ok false => pkgStream C rest
      | _ => []

/-- The final packages collection of a pass is the fold of the
per-package store updates over `pkgStream`, whatever the outcome. -/
theorem runPassFrom_packagesCol (C : CryptoModel) (label : List Nat) (now : Nat) :
    ∀ (msgs : List (Except BlockchainError (List Nat))) (st : SyncState)
      (out : List Package),
      (runPassFrom C label now msgs st out).state.packagesCol =
        (pkgStream C msgs).foldl
          (fun col pkg => processPackageUpdate label pkg col) st.packagesCol := by
  intro msgs
  induction msgs with
  | nil =>
    intro st out
    rfl
  | cons m rest ih =>
    intro st out
    match m with
    | .error e => rfl
    | .ok bytes =>
      show (runPassFrom C label now (.ok bytes :: rest) st out).state.packagesCol = _
      simp only [runPassFrom, pkgStream]
      match hd : decodePackage C bytes with
      | .err e => exact ih st out
      | .panic => rfl
      | .ok pkg =>
        simp only []
        match hv : verifyPackage C pkg with
        | .panic => rfl
        | .err e => rfl
        | .ok b =>
          simp only []
          cases b
          · rw [if_neg Bool.false_ne_true]
            exact ih st out
          · rw [if_pos rfl]
            simp only [List.foldl_cons]
            exact ih _ _

theorem find?_append_none {p : PackageDocument → Bool} {col : List PackageDocument}
    (h : col.find? p = none) (l2 : List PackageDocument) :
    (col ++ l2).find? p = l2.find? p := by
  induction col with
  | nil => rfl
  | cons d ds ih =>
    cases hp : p d
    · rw [List.find?_cons_of_neg _ (by simp [hp])] at h
      rw [List.cons_append, List.find?_cons_of_neg _ (by simp [hp])]
      exact ih h
    · rw [List.find?_cons_of_pos _ hp] at h
      cases h

theorem find?_append_some {p : PackageDocument → Bool} {col : List PackageDocument}
    {d0 : PackageDocument} (h : col.find? p = some d0) (l2 : List PackageDocument) :
    (col ++ l2).find? p = some d0 := by
  induction col with
  | nil => cases h
  | cons d ds ih =>
    cases hp : p d
    · rw [List.find?_cons_of_neg _ (by simp [hp])] at h
      rw [List.cons_append, List.find?_cons_of_neg _ (by simp [hp])]
      exact ih h
    · rw [List.find?_cons_of_pos _ hp] at h
      rw [List.cons_append, List.find?_cons_of_pos _ hp]
      exact h

/-- Updating the first match with the value it already holds is the
identity. -/
theorem updateFirst_self {p : PackageDocument → Bool} {doc : PackageDocument} :
    ∀ {col : List PackageDocument}, col.find? p = some doc →
      updateFirst p doc col = col := by
  intro col
  induction col with
  | nil => intro h; cases h
  | cons d ds ih =>
    intro h
    cases hp : p d
    · rw [List.find?_cons_of_neg _ (by simp [hp])] at h
      rw [show updateFirst p doc (d :: ds) = d :: updateFirst p doc ds from by
        simp [updateFirst, hp]]
      rw [ih h]
    · rw [List.find?_cons_of_pos _ hp] at h
      cases h
      simp [updateFirst, hp]

theorem find?_updateFirst_of_isSome {p : PackageDocument → Bool} {doc : PackageDocument}
    (hdoc : p doc = true) :
    ∀ {col : List PackageDocument}, (col.find? p).isSome = true →
      (updateFirst p doc col).find? p = some doc := by
  intro col
  induction col with
  | nil => intro h; simp [List.find?] at h
  | cons d ds ih =>
    intro h
    cases hp : p d
    · rw [List.find?_cons_of_neg _ (by simp [hp])] at h
      rw [show updateFirst p doc (d :: ds) = d :: updateFirst p doc ds from by
        simp [updateFirst, hp]]
      rw [List.find?_cons_of_neg _ (by simp [hp])]
      exact ih h
    · rw [show updateFirst p doc (d :: ds) = doc :: ds from by simp [updateFirst, hp]]
      rw [List.find?_cons_of_pos _ hdoc]

/-- After upserting `doc`, looking its key up finds exactly `doc`
(last-write-wins at the row level). -/
theorem find?_upsertDoc_self (doc : PackageDocument) (col : List PackageDocument) :
    (upsertDoc doc col).find? (keyMatches (keyTuple doc)) = some doc := by
  have hdoc : keyMatches (keyTuple doc) doc = true := keyMatches_iff.mpr rfl
  unfold upsertDoc
  cases hf : (col.find? (keyMatches (keyTuple doc))).isSome
  · rw [if_neg (by simp [hf])]
    have hnone : col.find? (keyMatches (keyTuple doc)) = none := by
      cases hfo : col.find? (keyMatches (keyTuple doc))
      · rfl
      · rw [hfo] at hf; simp at hf
    rw [find?_append_none hnone]
    rw [List.find?_cons_of_pos _ hdoc]
  · rw [if_pos (by simp [hf])]
    exact find?_updateFirst_of_isSome hdoc hf

theorem find?_updateFirst_ne {k k' : List Nat × List Nat × List Nat × List Nat}
    (doc : PackageDocument) (hne : k' ≠ k) (hdk : keyTuple doc = k) :
    ∀ (col : List PackageDocument),
      (updateFirst (keyMatches k) doc col).find? (keyMatches k') =
        col.find? (keyMatches k') := by
  intro col
  induction col with
  | nil => rfl
  | cons d ds ih =>
    cases hp : keyMatches k d
    · rw [show updateFirst (keyMatches k) doc (d :: ds)
          = d :: updateFirst (keyMatches k) doc ds from by simp [updateFirst, hp]]
      cases hp' : keyMatches k' d
      · rw [List.find?_cons_of_neg _ (by simp [hp']),
          List.find?_cons_of_neg _ (by simp [hp'])]
        exact ih
      · rw [List.find?_cons_of_pos _ hp', List.find?_cons_of_pos _ hp']
    · rw [show updateFirst (keyMatches k) doc (d :: ds) = doc :: ds from by
        simp [updateFirst, hp]]
      have hd : keyTuple d = k := keyMatches_iff.mp hp
      have h1 : keyMatches k' d = false := by
        cases hq : keyMatches k' d
        · rfl
        · have hk := keyMatches_iff.mp hq
          rw [hd] at hk
          exact absurd hk.symm hne
      have h2 : keyMatches k' doc = false := by
        cases hq : keyMatches k' doc
        · rfl
        · have hk := keyMatches_iff.mp hq
          rw [hdk] at hk
          exact absurd hk.symm hne
      rw [List.find?_cons_of_neg _ (by simp [h2]),
        List.find?_cons_of_neg _ (by simp [h1])]

theorem map_keyTuple_updateFirst (doc : PackageDocument) :
    ∀ (col : List PackageDocument),
      (updateFirst (keyMatches (keyTuple doc)) doc col).map keyTuple =
        col.map keyTuple := by
  intro col
  induction col with
  | nil => rfl
  | cons d ds ih =>
    cases hp : keyMatches (keyTuple doc) d
    · rw [show updateFirst (keyMatches (keyTuple doc)) doc (d :: ds)
          = d :: updateFirst (keyMatches (keyTuple doc)) doc ds from by
        simp [updateFirst, hp]]
      rw [List.map_cons, List.map_cons, ih]
    · rw [show updateFirst (keyMatches (keyTuple doc)) doc (d :: ds) = doc :: ds from by
        simp [updateFirst, hp]]
      rw [List.map_cons, List.map_cons, keyMatches_iff.mp hp]

/-- Upserting preserves the at-most-one-row-per-key store invariant. -/
theorem nodup_map_upsertDoc (doc : PackageDocument) (col : List PackageDocument)
    (h : (col.map keyTuple).Nodup) : ((upsertDoc doc col).map keyTuple).Nodup := by
  unfold upsertDoc
  cases hf : (col.find? (keyMatches (keyTuple doc))).isSome
  · rw [if_neg (by simp [hf])]
    have hnone : col.find? (keyMatches (keyTuple doc)) = none := by
      cases hfo : col.find? (keyMatches (keyTuple doc))
      · rfl
      · rw [hfo] at hf; simp at hf
    have hnotin : keyTuple doc ∉ col.map keyTuple := by
      intro hmem
      obtain ⟨d, hd, hkd⟩ := List.mem_map.mp hmem
      have hnot := List.find?_eq_none.mp hnone d hd
      exact hnot (keyMatches_iff.mpr hkd)
    rw [List.map_append]
    simp [List.nodup_append, h, hnotin]
  · rw [if_pos (by simp [hf])]
    rw [map_keyTuple_updateFirst doc col]
    exact h

theorem find?_upsertDoc_ne {k' : List Nat × List Nat × List Nat × List Nat}
    (doc : PackageDocument) (hne : k' ≠ keyTuple doc) (col : List PackageDocument) :
    (upsertDoc doc col).find? (keyMatches k') = col.find? (keyMatches k') := by
  unfold upsertDoc
  cases hf : (col.find? (keyMatches (keyTuple doc))).isSome
  · rw [if_neg (by simp [hf])]
    cases hfo : col.find? (keyMatches k')
    · rw [find?_append_none hfo]
      have hdoc : keyMatches k' doc = false := by
        cases hq : keyMatches k' doc
        · rfl
        · exact absurd (keyMatches_iff.mp hq).symm hne
      rw [List.find?_cons_of_neg _ (by simp [hdoc])]
      rfl
    · exact find?_append_some hfo _
  · rw [if_pos (by simp [hf])]
    exact find?_updateFirst_ne doc hne rfl col

theorem isSome_find?_upsertDoc {k : List Nat × List Nat × List Nat × List Nat}
    (doc : PackageDocument) (col : List PackageDocument)
    (h : (col.find? (keyMatches k)).isSome = true) :
    ((upsertDoc doc col).find? (keyMatches k)).isSome = true := by
  by_cases hk : k = keyTuple doc
  · subst hk
    rw [find?_upsertDoc_self]
    rfl
  · rw [find?_upsertDoc_ne doc hk col]
    exact h

theorem find?_upsertAll_ne {k' : List Nat × List Nat × List Nat × List Nat} :
    ∀ (ds col : List PackageDocument), (∀ d ∈ ds, keyTuple d ≠ k') →
      (upsertAll ds col).find? (keyMatches k') = col.find? (keyMatches k') := by
  intro ds
  induction ds with
  | nil => intro col _; rfl
  | cons d ds ih =>
    intro col h
    show (upsertAll ds (upsertDoc d col)).find? (keyMatches k')
      = col.find? (keyMatches k')
    rw [ih (upsertDoc d col) (fun e he => h e (List.mem_cons_of_mem _ he))]
    exact find?_upsertDoc_ne d (fun he => h d (List.mem_cons_self _ _) he.symm) col

theorem isSome_find?_upsertAll {k : List Nat × List Nat × List Nat × List Nat} :
    ∀ (ds col : List PackageDocument),
      (col.find? (keyMatches k)).isSome = true →
      ((upsertAll ds col).find? (keyMatches k)).isSome = true := by
  intro ds
  induction ds with
  | nil => intro col h; exact h
  | cons d ds ih =>
    intro col h
    exact ih _ (isSome_find?_upsertDoc d col h)

theorem nodup_map_upsertAll :
    ∀ (ds col : List PackageDocument), (col.map keyTuple).Nodup →
      ((upsertAll ds col).map keyTuple).Nodup := by
  intro ds
  induction ds with
  | nil => intro col h; exact h
  | cons d ds ih =>
    intro col h
    exact ih _ (nodup_map_upsertDoc d col h)

/-- Two store rows are related when they share a composite key and are
either equal or carry a key that a later upsert will overwrite. -/
def rowsRel (ks : List (List Nat × List Nat × List Nat × List Nat))
    (d1 d2 : PackageDocument) : Prop :=
  keyTuple d1 = keyTuple d2 ∧ (d1 = d2 ∨ keyTuple d1 ∈ ks)

theorem forall₂_rowsRel_nil {col1 col2 : List PackageDocument}
    (h : List.Forall₂ (rowsRel []) col1 col2) : col1 = col2 := by
  induction h with
  | nil => rfl
  | cons hp hrest ih =>
    rcases hp with ⟨-, heq | hmem⟩
    · rw [heq, ih]
    · cases hmem

theorem find?_isSome_congr {ks : List (List Nat × List Nat × List Nat × List Nat)}
    {col1 col2 : List PackageDocument} (k : List Nat × List Nat × List Nat × List Nat)
    (h : List.Forall₂ (rowsRel ks) col1 col2) :
    (col1.find? (keyMatches k)).isSome = (col2.find? (keyMatches k)).isSome := by
  induction h with
  | nil => rfl
  | cons hp hrest ih =>
    rename_i a b l1 l2
    have hmeq : keyMatches k a = keyMatches k b := by
      unfold keyMatches
      rw [hp.1]
    cases hq : keyMatches k a
    · rw [List.find?_cons_of_neg _ (by simp [hq]),
        List.find?_cons_of_neg _ (by simp [← hmeq, hq])]
      exact ih
    · rw [List.find?_cons_of_pos _ hq, List.find?_cons_of_pos _ (hmeq ▸ hq)]
      rfl

theorem forall₂_demote {k : List Nat × List Nat × List Nat × List Nat}
    {ks : List (List Nat × List Nat × List Nat × List Nat)}
    {l1 l2 : List PackageDocument}
    (h : List.Forall₂ (rowsRel (k :: ks)) l1 l2)
    (hk : ∀ e ∈ l1, keyTuple e ≠ k) :
    List.Forall₂ (rowsRel ks) l1 l2 := by
  induction h with
  | nil => exact .nil
  | cons hp hrest ih =>
    rename_i a b l1 l2
    refine .cons ⟨hp.1, ?_⟩ (ih (fun e he => hk e (List.mem_cons_of_mem _ he)))
    rcases hp.2 with heq | hmem
    · exact Or.inl heq
    · rcases List.mem_cons.mp hmem with hke | hks
      · exact absurd hke (hk a (List.mem_cons_self _ _))
      · exact Or.inr hks

theorem forall₂_rowsRel_refl (ks : List (List Nat × List Nat × List Nat × List Nat)) :
    ∀ (l : List PackageDocument), List.Forall₂ (rowsRel ks) l l := by
  intro l
  induction l with
  | nil => exact .nil
  | cons d ds ih => exact .cons ⟨rfl, Or.inl rfl⟩ ih

/-- Overwriting a key that a later upsert will rewrite anyway keeps the
collection related. -/
theorem rel_updateFirst_self {ks : List (List Nat × List Nat × List Nat × List Nat)}
    (doc : PackageDocument) (hmem : keyTuple doc ∈ ks) :
    ∀ (l : List PackageDocument),
      List.Forall₂ (rowsRel ks) l (updateFirst (keyMatches (keyTuple doc)) doc l) := by
  intro l
  induction l with
  | nil => exact .nil
  | cons d ds ih =>
    cases hp : keyMatches (keyTuple doc) d
    · rw [show updateFirst (keyMatches (keyTuple doc)) doc (d :: ds)
          = d :: updateFirst (keyMatches (keyTuple doc)) doc ds from by
        simp [updateFirst, hp]]
      exact .cons ⟨rfl, Or.inl rfl⟩ ih
    · rw [show updateFirst (keyMatches (keyTuple doc)) doc (d :: ds) = doc :: ds from by
        simp [updateFirst, hp]]
      have hd : keyTuple d = keyTuple doc := keyMatches_iff.mp hp
      exact .cons ⟨hd, Or.inr (hd ▸ hmem)⟩ (forall₂_rowsRel_refl ks ds)

theorem forall₂_append_single {R : PackageDocument → PackageDocument → Prop}
    {l1 l2 : List PackageDocument} (h : List.Forall₂ R l1 l2) {a : PackageDocument}
    (ha : R a a) : List.Forall₂ R (l1 ++ [a]) (l2 ++ [a]) := by
  induction h with
  | nil => exact .cons ha .nil
  | cons hp hrest ih => exact .cons hp ih

theorem forall₂_updateFirst {k : List Nat × List Nat × List Nat × List Nat}
    {ks : List (List Nat × List Nat × List Nat × List Nat)}
    (doc : PackageDocument) (hdk : keyTuple doc = k) :
    ∀ (l1 l2 : List PackageDocument), (l1.map keyTuple).Nodup →
      List.Forall₂ (rowsRel (k :: ks)) l1 l2 →
      List.Forall₂ (rowsRel ks) (updateFirst (keyMatches k) doc l1)
        (updateFirst (keyMatches k) doc l2) := by
  intro l1
  induction l1 with
  | nil =>
    intro l2 _ hf
    cases hf
    exact .nil
  | cons a l1' ih =>
    intro l2 hnd hf
    cases hf with
    | cons hp hrest =>
      rename_i b l2'
      have hkeq : keyTuple a = keyTuple b := hp.1
      have hmeq : keyMatches k a = keyMatches k b := by
        unfold keyMatches
        rw [hkeq]
      rw [List.map_cons, List.nodup_cons] at hnd
      cases hq : keyMatches k a
      · rw [show updateFirst (keyMatches k) doc (a :: l1')
            = a :: updateFirst (keyMatches k) doc l1' from by simp [updateFirst, hq]]
        rw [show updateFirst (keyMatches k) doc (b :: l2')
            = b :: updateFirst (keyMatches k) doc l2' from by
          simp [updateFirst, ← hmeq, hq]]
        refine .cons ⟨hkeq, ?_⟩ (ih l2' hnd.2 hrest)
        rcases hp.2 with heq | hmem
        · exact Or.inl heq
        · rcases List.mem_cons.mp hmem with hke | hks
          · exact absurd (keyMatches_iff.mpr hke) (by simp [hq])
          · exact Or.inr hks
      · rw [show updateFirst (keyMatches k) doc (a :: l1') = doc :: l1' from by
          simp [updateFirst, hq]]
        rw [show updateFirst (keyMatches k) doc (b :: l2') = doc :: l2' from by
          simp [updateFirst, ← hmeq, hq]]
        refine .cons ⟨rfl, Or.inl rfl⟩ ?_
        apply forall₂_demote hrest
        intro e he hke
        have hka : keyTuple a = k := keyMatches_iff.mp hq
        exact hnd.1 (List.mem_map.mpr ⟨e, he, hke.trans hka.symm⟩)

/-- Rows differing only at keys that the remaining upserts rewrite are
indistinguishable after those upserts. -/
theorem upsertAll_congr :
    ∀ (ds col1 col2 : List PackageDocument), (col1.map keyTuple).Nodup →
      List.Forall₂ (rowsRel (ds.map keyTuple)) col1 col2 →
      upsertAll ds col1 = upsertAll ds col2 := by
  intro ds
  induction ds with
  | nil =>
    intro col1 col2 _ hf
    exact forall₂_rowsRel_nil hf
  | cons doc ds' ih =>
    intro col1 col2 hnd hf
    rw [List.map_cons] at hf
    show upsertAll ds' (upsertDoc doc col1) = upsertAll ds' (upsertDoc doc col2)
    have hs := find?_isSome_congr (keyTuple doc) hf
    apply ih _ _ (nodup_map_upsertDoc doc col1 hnd)
    unfold upsertDoc
    cases hf1 : (col1.find? (keyMatches (keyTuple doc))).isSome
    · rw [if_neg (by simp [hf1]), if_neg (by simp [← hs, hf1])]
      have hnone : col1.find? (keyMatches (keyTuple doc)) = none := by
        cases hfo : col1.find? (keyMatches (keyTuple doc))
        · rfl
        · rw [hfo] at hf1; simp at hf1
      refine forall₂_append_single (forall₂_demote hf ?_) ⟨rfl, Or.inl rfl⟩
      intro e he hke
      exact (List.find?_eq_none.mp hnone e he) (keyMatches_iff.mpr hke)
    · rw [if_pos (by simp [hf1]), if_pos (by simp [← hs, hf1])]
      exact forall₂_updateFirst doc rfl col1 col2 hnd hf

theorem upsertDoc_of_isSome (doc : PackageDocument) (col : List PackageDocument)
    (h : (col.find? (keyMatches (keyTuple doc))).isSome = true) :
    upsertDoc doc col = updateFirst (keyMatches (keyTuple doc)) doc col := by
  unfold upsertDoc
  rw [if_pos h]

/-- Replaying the same upsert sequence is the identity on a store with
at most one row per key. -/
theorem upsertAll_idem :
    ∀ (ds col : List PackageDocument), (col.map keyTuple).Nodup →
      upsertAll ds (upsertAll ds col) = upsertAll ds col := by
  intro ds
  induction ds with
  | nil => intro col _; rfl
  | cons doc ds' ih =>
    intro col hnd
    show upsertAll ds' (upsertDoc doc (upsertAll ds' (upsertDoc doc col)))
      = upsertAll ds' (upsertDoc doc col)
    have hndA : ((upsertDoc doc col).map keyTuple).Nodup := nodup_map_upsertDoc doc col hnd
    have hFA : (upsertDoc doc col).find? (keyMatches (keyTuple doc)) = some doc :=
      find?_upsertDoc_self doc col
    by_cases hk : keyTuple doc ∈ ds'.map keyTuple
    · have hndY : ((upsertAll ds' (upsertDoc doc col)).map keyTuple).Nodup :=
        nodup_map_upsertAll ds' _ hndA
      have hisY : ((upsertAll ds' (upsertDoc doc col)).find?
          (keyMatches (keyTuple doc))).isSome = true :=
        isSome_find?_upsertAll ds' _ (by rw [hFA]; rfl)
      rw [upsertDoc_of_isSome doc _ hisY]
      rw [← upsertAll_congr ds' _ _ hndY (rel_updateFirst_self doc hk _)]
      exact ih _ hndA
    · have hall : ∀ d ∈ ds', keyTuple d ≠ keyTuple doc := by
        intro d hd he
        exact hk (List.mem_map.mpr ⟨d, hd, he⟩)
      have hYfind : (upsertAll ds' (upsertDoc doc col)).find?
          (keyMatches (keyTuple doc)) = some doc := by
        rw [find?_upsertAll_ne ds' _ hall]
        exact hFA
      have hupd : upsertDoc doc (upsertAll ds' (upsertDoc doc col))
          = upsertAll ds' (upsertDoc doc col) := by
        rw [upsertDoc_of_isSome doc _ (show ((upsertAll ds' (upsertDoc doc col)).find?
          (keyMatches (keyTuple doc))).isSome = true from by rw [hYfind]; rfl)]
        exact updateFirst_self hYfind
      rw [hupd]
      exact ih _ hndA

/-- For a colon-free document, `read_by_key` of its composite key is the
first row with the same four key fields. -/
theorem readByKey_eq_find (d : PackageDocument) (col : List PackageDocument)
    (hl : 58 ∉ d.blockchain_label) (hn : 58 ∉ d.name)
    (hv : 58 ∉ d.version) (hm : 58 ∉ d.maintainer) :
    readByKey (getCompositeKey d) col = col.find? (keyMatches (keyTuple d)) := by
  unfold readByKey
  rw [parts_of_key d hl hn hv hm]
  simp only []
  congr 1
  funext e
  exact docMatches_eq_keyMatches _ _ _ _ e

/-- A pass's stored-package fold is the upsert of the corresponding
documents, provided the key fields are colon-free. -/
theorem foldl_process_eq_upsertAll (label : List Nat) (hl : 58 ∉ label) :
    ∀ (ps : List Package) (col : List PackageDocument),
      (∀ p ∈ ps, 58 ∉ p.name ∧ 58 ∉ p.version) →
      ps.foldl (fun c pkg => processPackageUpdate label pkg c) col
        = upsertAll (ps.map (docFromPackage label)) col := by
  intro ps
  induction ps with
  | nil => intro col _; rfl
  | cons p ps ih =>
    intro col h
    have hp := h p (List.mem_cons_self _ _)
    rw [List.foldl_cons, processPackageUpdate_eq_upsertDoc label p col hl hp.1 hp.2]
    rw [List.map_cons]
    have hstep : upsertAll (docFromPackage label p :: ps.map (docFromPackage label)) col
        = upsertAll (ps.map (docFromPackage label))
            (upsertDoc (docFromPackage label p) col) := rfl
    rw [hstep]
    exact ih _ (fun q hq => h q (List.mem_cons_of_mem _ hq))

/-- A package whose name contains the composite-key separator ":". -/
def pkgColon : Package := { samplePkg with name := [97, 58, 98] }

def colonWire : List Nat :=
  rlpEncList (rlpDataStreamRaw pkgColon ++ rlpEncBytes sampleSig)

/-- Claim C6, counterexample: processing the one-message stream carrying
the package named "a:b" twice leaves two store rows with the same
composite key fields, while processing it once leaves one row — the
split-on-":" key lookup cannot find the row it just created, so the
second pass inserts instead of updating, refuting run-twice = run-once
and at-most-one-row-per-key for colon-bearing names. -/
theorem c6_counterexample_colon_breaks_idempotence :
    ((runPass CryptoTrue sampleLabel 2 [.ok colonWire]
        (runPass CryptoTrue sampleLabel 1 [.ok colonWire]
          emptyState).state).state.packagesCol).length = 2 ∧
    ((runPass CryptoTrue sampleLabel 1 [.ok colonWire]
        emptyState).state.packagesCol).length = 1 := by
  constructor
  · decide
  · decide

/-- Claim C6 (amended to colon-free key fields, which the counterexample
shows is necessary): when the ledger label and the names and versions of
the packages a pass stores are colon-free (the stored maintainer is hex,
hence always colon-free), (i) running the same upstream stream twice
produces the same final package store as running it once, (ii) the pass
preserves the at-most-one-row-per-composite-key invariant, and (iii) a
later key-equal arrival overwrites the earlier one: after processing p1
then p2, looking up p2's composite key returns exactly p2's document. -/
theorem c6_amended_run_twice_eq_once (C : CryptoModel) (label : List Nat)
    (now1 now2 : Nat) (msgs : List (Except BlockchainError (List Nat)))
    (st : SyncState)
    (hl : 58 ∉ label)
    (hps : ∀ p ∈ pkgStream C msgs, 58 ∉ p.name ∧ 58 ∉ p.version)
    (hnd : (st.packagesCol.map keyTuple).Nodup) :
    (runPass C label now2 msgs
        (runPass C label now1 msgs st).state).state.packagesCol
      = (runPass C label now1 msgs st).state.packagesCol ∧
    (((runPass C label now1 msgs st).state.packagesCol).map keyTuple).Nodup ∧
    (∀ (p1 p2 : Package) (col : List PackageDocument),
      58 ∉ p1.name → 58 ∉ p1.version → 58 ∉ p2.name → 58 ∉ p2.version →
      keyTuple (docFromPackage label p1) = keyTuple (docFromPackage label p2) →
      readByKey (getCompositeKey (docFromPackage label p2))
        (processPackageUpdate label p2 (processPackageUpdate label p1 col))
        = some (docFromPackage label p2)) := by
  have h1 : (runPass C label now1 msgs st).state.packagesCol
      = upsertAll ((pkgStream C msgs).map (docFromPackage label)) st.packagesCol := by
    rw [show runPass C label now1 msgs st = runPassFrom C label now1 msgs st [] from rfl]
    rw [runPassFrom_packagesCol C label now1 msgs st []]
    exact foldl_process_eq_upsertAll label hl (pkgStream C msgs) st.packagesCol hps
  refine ⟨?_, ?_, ?_⟩
  · rw [show runPass C label now2 msgs (runPass C label now1 msgs st).state
        = runPassFrom C label now2 msgs (runPass C label now1 msgs st).state [] from rfl]
    rw [runPassFrom_packagesCol C label now2 msgs
      (runPass C label now1 msgs st).state []]
    rw [foldl_process_eq_upsertAll label hl (pkgStream C msgs)
      (runPass C label now1 msgs st).state.packagesCol hps]
    rw [h1]
    exact upsertAll_idem _ _ hnd
  · rw [h1]
    exact nodup_map_upsertAll _ _ hnd
  · intro p1 p2 col hn1 hv1 hn2 hv2 _
    rw [processPackageUpdate_eq_upsertDoc label p1 col hl hn1 hv1]
    rw [processPackageUpdate_eq_upsertDoc label p2 _ hl hn2 hv2]
    rw [readByKey_eq_find (docFromPackage label p2) _ hl hn2 hv2
      (colon_not_mem_hexEncode _)]
    exact find?_upsertDoc_self (docFromPackage label p2) _

/-- Witness for C6 at a concrete colon-free stream: one valid frame,
processed twice from the empty store, gives the same store as once. -/
theorem c6_witness :
    (58 ∉ sampleLabel ∧
      (∀ p ∈ pkgStream CryptoTrue [.ok sampleWire], 58 ∉ p.name ∧ 58 ∉ p.version) ∧
      (emptyState.packagesCol.map keyTuple).Nodup) ∧
    (runPass CryptoTrue sampleLabel 2 [.ok sampleWire]
        (runPass CryptoTrue sampleLabel 1 [.ok sampleWire]
          emptyState).state).state.packagesCol
      = (runPass CryptoTrue sampleLabel 1 [.ok sampleWire]
          emptyState).state.packagesCol :=
  ⟨⟨by decide, by decide, by decide⟩,
    (c6_amended_run_twice_eq_once CryptoTrue sampleLabel 1 2 [.ok sampleWire]
      emptyState (by decide) (by decide) (by decide)).1⟩
